import Mathlib

/-!
Verification development for the trait-winnower dynamic-analysis core.

This file gives a shallow embedding, in Lean, of the data model and the
operations of `src/analysis.rs`, `src/dynamic_analysis/common.rs` and
`src/dynamic_analysis/edit.rs`, and proves properties of that embedding.

Modelling conventions:
 - `syn` token-stream atoms (`TypeParamBound`, `Type`, identifiers) are opaque
   strings; `Punctuated<T, P>` lists are plain `List T` (the code rebuilds
   punctuation from `P::default()`, so punctuation carries no information).
 - machine integers (`u32` checksums, `usize` indices) are `Nat`; the checksum
   function `crc32fast::hash` is an abstract parameter of the engine.
 - the external collaborators (pretty-printer `prettyplease::unparse`, the
   checksum, and the `cargo check` verifier) are parameters bundled in an
   environment record; the verifier is a deterministic oracle on the current
   file bytes, returning `none` when the command cannot be invoked at all.
 - the file system is a single file's bytes, threaded as explicit state, with
   an instrumentation counter recording how often the verifier was invoked.
 - module items (`visit_item_mod_mut`) only guard on `self.modified` and
   recurse; inlining a module's items into the surrounding item list in
   visit order preserves the editor's behaviour exactly, so the file model
   is a flat list of items, with trait/impl methods nested one level.
-/

namespace TraitWinnower

/-- Opaque model of a `syn::TypeParamBound` atom (e.g. `Clone`). -/
abbrev Bound := String

/-- Model of `BoundSite` from `src/dynamic_analysis/common.rs`: the structural
coordinate of one removable bound. -/
inductive BoundSite where
  | typeParamSite (ident : String) (param_index : Nat) (bound_index : Nat)
  | whereClauseSite (ty : String) (pred_index : Nat) (bound_index : Nat)
deriving DecidableEq, Repr

/-- Model of `BoundCandidate`: a coordinate paired with the bound atom. -/
structure BoundCandidate where
  site : BoundSite
  bound : Bound
deriving DecidableEq, Repr

/-- Model of `syn::TypeParam`: identifier, presence of the `:` token, and the
bound list. -/
structure TypeParamData where
  ident : String
  colonToken : Bool
  bounds : List Bound
deriving DecidableEq, Repr

/-- Model of `syn::GenericParam` (lifetime / type / const). -/
inductive GenericParam where
  | lifetimeParam
  | typeParam (tp : TypeParamData)
  | constParam
deriving DecidableEq, Repr

/-- Model of `syn::PredicateType`: bounded type and its bound list. -/
structure WhereTypePredicate where
  boundedTy : String
  bounds : List Bound
deriving DecidableEq, Repr

/-- Model of `syn::WherePredicate` (type-shaped or lifetime-shaped). -/
inductive WherePredicate where
  | typePredicate (tp : WhereTypePredicate)
  | lifetimePredicate
deriving DecidableEq, Repr

/-- Model of `syn::Generics`: parameter list and optional where clause. -/
structure Generics where
  params : List GenericParam
  whereClause : Option (List WherePredicate)
deriving DecidableEq, Repr

/-- Model of the `kept` loop inside `Remove::remove_punctuated_at` /
`Remove::drop_predicate_at`: iterate with a running index starting at `i`,
keeping every element whose index differs from `idx`. -/
def kept_filter (idx : Nat) (i : Nat) : List α → List α
  | [] => []
  | v :: rest =>
    if i ≠ idx then v :: kept_filter idx (i + 1) rest
    else kept_filter idx (i + 1) rest

/-- Model of `Remove::remove_punctuated_at`: if `idx` is out of range return
the list unchanged and `false`, otherwise drop the element at `idx`
(rebuilding punctuation from defaults) and return `true`. -/
def remove_punctuated_at (l : List α) (idx : Nat) : List α × Bool :=
  if l.length ≤ idx then (l, false)
  else (kept_filter idx 0 l, true)

/-- Model of `Remove::drop_predicate_at`: drop the predicate at `idx` when in
range, otherwise return the list unchanged. -/
def drop_predicate_at (preds : List WherePredicate) (idx : Nat) :
    List WherePredicate :=
  if preds.length ≤ idx then preds
  else kept_filter idx 0 preds

/-- Model of `Remove::remove_tp_bound_by_index`: look up the generic parameter
at `param_index` (over all parameter kinds), require it to be a type
parameter, remove the bound at `bound_index`, and drop the colon token when
the bound list becomes empty. -/
def remove_tp_bound_by_index (g : Generics) (param_index bound_index : Nat) :
    Generics × Bool :=
  match g.params[param_index]? with
  | some (GenericParam.typeParam tp) =>
    let r := remove_punctuated_at tp.bounds bound_index
    let tp2 : TypeParamData :=
      { tp with
        bounds := r.1
        colonToken := if r.2 ∧ r.1.isEmpty then false else tp.colonToken }
    ({ g with params := g.params.set param_index (GenericParam.typeParam tp2) },
      r.2)
  | _ => (g, false)

/-- Model of `Remove::remove_where_bound_by_index`: look up predicate
`pred_index` in the where clause, require it to be type-shaped, remove the
bound at `bound_index`; when the predicate's bounds become empty drop the
predicate, and when no predicates remain drop the whole clause. -/
def remove_where_bound_by_index (g : Generics) (pred_index bound_index : Nat) :
    Generics × Bool :=
  match g.whereClause with
  | none => (g, false)
  | some preds =>
    match preds[pred_index]? with
    | some (WherePredicate.typePredicate tp) =>
      let r := remove_punctuated_at tp.bounds bound_index
      let preds2 := preds.set pred_index
        (WherePredicate.typePredicate { tp with bounds := r.1 })
      if r.2 ∧ r.1.isEmpty then
        let preds3 := drop_predicate_at preds2 pred_index
        if preds3.isEmpty then ({ g with whereClause := none }, r.2)
        else ({ g with whereClause := some preds3 }, r.2)
      else ({ g with whereClause := some preds2 }, r.2)
    | _ => (g, false)

/-- Model of `Remove::apply_to_item_with_generics`: dispatch on the candidate's
site kind. -/
def apply_to_item_with_generics (g : Generics) (c : BoundCandidate) :
    Generics × Bool :=
  match c.site with
  | BoundSite.typeParamSite _ pi bi => remove_tp_bound_by_index g pi bi
  | BoundSite.whereClauseSite _ pi bi => remove_where_bound_by_index g pi bi

/-- Model of a `proc_macro2::Span`: byte range, source file, and start/end
line/column positions. -/
structure Span where
  byteStart : Nat
  byteEnd : Nat
  file : String
  startLine : Nat
  startColumn : Nat
  endLine : Nat
  endColumn : Nat
deriving DecidableEq, Repr

/-- Model of `BoundEditor::spans_equal` from `src/dynamic_analysis/edit.rs`:
byte-range equality first, then (same file) start/end line-and-column
equality. -/
def spans_equal (span1 span2 : Span) : Bool :=
  if span1.byteStart = span2.byteStart ∧ span1.byteEnd = span2.byteEnd then
    true
  else if span1.file ≠ span2.file then
    false
  else
    span1.startLine = span2.startLine ∧
      span1.startColumn = span2.startColumn ∧
      span1.endLine = span2.endLine ∧
      span1.endColumn = span2.endColumn

/-- Immutable configuration of a `BoundEditor` (target identifier, target
anchor span, and candidate); the mutable `modified` flag is threaded
separately, exactly as the Rust struct holds three immutable fields and one
mutable flag. -/
structure EditorCfg where
  target_ident : Option String
  target_anchor : Span
  candidate : BoundCandidate
deriving DecidableEq, Repr

/-- Model of `BoundEditor::try_edit_node`: skip when already modified, when the
anchors differ, or when both an expected and an actual identifier exist and
differ; otherwise apply the candidate removal to the node's generics and
record whether it mutated. -/
def try_edit_node (cfg : EditorCfg) (modified : Bool)
    (node_ident : Option String) (node_anchor : Span) (g : Generics) :
    Bool × Generics :=
  if modified then (modified, g)
  else if ¬ spans_equal node_anchor cfg.target_anchor then (modified, g)
  else
    match cfg.target_ident, node_ident with
    | some want, some got =>
      if want ≠ got then (modified, g)
      else
        let r := apply_to_item_with_generics g cfg.candidate
        (r.2, r.1)
    | _, _ =>
      let r := apply_to_item_with_generics g cfg.candidate
      (r.2, r.1)

/-- Model of a method item nested in a trait or impl block (`syn::TraitItemFn`
or `syn::ImplItemFn`): signature identifier, its span (the anchor used by the
editor), and the signature's generics. -/
structure MethodNode where
  ident : String
  anchor : Span
  generics : Generics
deriving DecidableEq, Repr

/-- Model of one top-level item of a parsed file, restricted to the kinds the
editor visits. Trait and impl items carry their directly nested methods. -/
inductive Node where
  | fnNode (ident : String) (anchor : Span) (generics : Generics)
  | structNode (ident : String) (anchor : Span) (generics : Generics)
  | enumNode (ident : String) (anchor : Span) (generics : Generics)
  | traitNode (ident : String) (anchor : Span) (generics : Generics)
      (methods : List MethodNode)
  | implNode (anchor : Span) (generics : Generics)
      (methods : List MethodNode)
deriving DecidableEq, Repr

/-- Visit one nested method (`visit_trait_item_fn_mut` /
`visit_impl_item_fn_mut`): the anchor is the signature identifier's span. -/
def visit_method (cfg : EditorCfg) (modified : Bool) (m : MethodNode) :
    Bool × MethodNode :=
  let r := try_edit_node cfg modified (some m.ident) m.anchor m.generics
  (r.1, { m with generics := r.2 })

/-- Visit the methods of a trait or impl block in order. -/
def visit_methods (cfg : EditorCfg) (modified : Bool) :
    List MethodNode → Bool × List MethodNode
  | [] => (modified, [])
  | m :: rest =>
    let r := visit_method cfg modified m
    let rr := visit_methods cfg r.1 rest
    (rr.1, r.2 :: rr.2)

/-- Visit one item, mirroring the `VisitMut` impl for `BoundEditor`: functions,
structs and enums are edited at their identifier anchor and not recursed
into; traits and impls are edited at their own anchor (identifier or `impl`
token) and, only when still unmodified, their nested methods are visited. -/
def visit_node (cfg : EditorCfg) (modified : Bool) : Node → Bool × Node
  | Node.fnNode ident anchor g =>
    let r := try_edit_node cfg modified (some ident) anchor g
    (r.1, Node.fnNode ident anchor r.2)
  | Node.structNode ident anchor g =>
    let r := try_edit_node cfg modified (some ident) anchor g
    (r.1, Node.structNode ident anchor r.2)
  | Node.enumNode ident anchor g =>
    let r := try_edit_node cfg modified (some ident) anchor g
    (r.1, Node.enumNode ident anchor r.2)
  | Node.traitNode ident anchor g methods =>
    let r := try_edit_node cfg modified (some ident) anchor g
    if r.1 then (r.1, Node.traitNode ident anchor r.2 methods)
    else
      let rm := visit_methods cfg r.1 methods
      (rm.1, Node.traitNode ident anchor r.2 rm.2)
  | Node.implNode anchor g methods =>
    let r := try_edit_node cfg modified none anchor g
    if r.1 then (r.1, Node.implNode anchor r.2 methods)
    else
      let rm := visit_methods cfg r.1 methods
      (rm.1, Node.implNode anchor r.2 rm.2)

/-- Visit a whole file (`visit_file_mut`): items in order. -/
def visit_file (cfg : EditorCfg) (modified : Bool) :
    List Node → Bool × List Node
  | [] => (modified, [])
  | n :: rest =>
    let r := visit_node cfg modified n
    let rr := visit_file cfg r.1 rest
    (rr.1, r.2 :: rr.2)

/-- Model of `CommandOutput`: exit-status success flag and captured output. -/
structure CommandOutput where
  status_success : Bool
  stdout : String
  stderr : String
deriving DecidableEq, Repr

/-- Model of `BoundRemovalOutcome`. -/
inductive BoundRemovalOutcome where
  | removed (check : CommandOutput)
  | retained (check : CommandOutput)
  | skipped
deriving DecidableEq, Repr

/-- Model of `BoundRemovalResult`: the tried candidate and its outcome. -/
structure BoundRemovalResult where
  candidate : BoundCandidate
  outcome : BoundRemovalOutcome
deriving DecidableEq, Repr

/-- The external collaborators of the engine: the pretty-printer
(`prettyplease::unparse`), the checksum (`crc32fast::hash`, modelled as an
abstract `Nat`-valued hash), and the verifier (`cargo check` as a
deterministic oracle on the file's current bytes; `none` models the command
failing to run at all, i.e. the `Err` branch of `run_cargo_check`). -/
structure ExternalEnv where
  unparse : List Node → String
  hash_bytes : String → Nat
  run_check : String → Option CommandOutput

/-- Observable external state: the target file's bytes on disk, plus an
instrumentation counter of how many times the verifier was invoked. -/
structure ExtState where
  disk : String
  checks_run : Nat
deriving DecidableEq, Repr

/-- Result quadruple of `CandidateTrialConfig::try_candidate_once`:
`(accepted, outcome, new current source, new current hash)`. -/
structure TrialResult where
  accepted : Bool
  outcome : BoundRemovalOutcome
  new_src : String
  new_hash : Nat
deriving DecidableEq, Repr

/-- Model of `CandidateTrialConfig::try_candidate_once`: clone the working
tree, run the editor; if nothing was modified, or the re-serialized text
hashes to the current checksum, record `Skipped` without touching the disk or
the verifier. Otherwise write the trial text, invoke the verifier (an `Err`
from the invocation propagates immediately, leaving the trial text on disk),
and either accept (keep the trial text) or revert by writing back
`current_src`. -/
def try_candidate_once (env : ExternalEnv) (st : ExtState)
    (working : List Node) (target_ident : Option String) (target_anchor : Span)
    (candidate : BoundCandidate) (current_src : String) (current_hash : Nat) :
    Except String TrialResult × ExtState :=
  let cfg : EditorCfg := ⟨target_ident, target_anchor, candidate⟩
  let r := visit_file cfg false working
  if ¬ r.1 then
    (Except.ok ⟨false, BoundRemovalOutcome.skipped, current_src, current_hash⟩,
      st)
  else
    let updated_src := env.unparse r.2
    let updated_hash := env.hash_bytes updated_src
    if updated_hash = current_hash then
      (Except.ok
        ⟨false, BoundRemovalOutcome.skipped, current_src, current_hash⟩, st)
    else
      let st1 : ExtState :=
        { disk := updated_src, checks_run := st.checks_run + 1 }
      match env.run_check updated_src with
      | none => (Except.error "running cargo check", st1)
      | some check =>
        if check.status_success then
          (Except.ok
            ⟨true, BoundRemovalOutcome.removed check, updated_src,
              updated_hash⟩, st1)
        else
          (Except.ok
            ⟨false, BoundRemovalOutcome.retained check, current_src,
              current_hash⟩, { st1 with disk := current_src })

/-- Model of `analysis::TypeParamBounds`: a snapshot of one bounded type
parameter taken at extraction time (identifier, cloned bound list, and the
parameter's index among all generic parameters). -/
structure TypeParamBounds where
  ident : String
  bounds : List Bound
  param_index : Nat
deriving DecidableEq, Repr

/-- Model of `analysis::WhereTypeBounds`: a snapshot of one type-shaped where
predicate (bounded type, cloned bound list, predicate index). -/
structure WhereTypeBounds where
  ty : String
  bounds : List Bound
  pred_index : Nat
deriving DecidableEq, Repr

/-- Model of one `analysis::FnBounds`-style record (the per-kind structs
generated by `define_bounds_types!` are all identical in shape): the item's
identity (optional identifier and anchor span from `ItemKey`) and the
extraction-time snapshots of its bounded type parameters and where
predicates. -/
structure BoundsItem where
  ident : Option String
  anchor : Span
  type_params : List TypeParamBounds
  where_preds : List WhereTypeBounds
deriving DecidableEq, Repr

/-- Enumerate a bound list with a running index, building candidates. Models
the `iter().cloned().enumerate()` loops in `push_type_param_candidates` and
`push_where_candidates`. -/
def enum_candidates (mk : Nat → Bound → BoundCandidate) :
    Nat → List Bound → List BoundCandidate
  | _, [] => []
  | i, b :: rest => mk i b :: enum_candidates mk (i + 1) rest

/-- Model of `BoundCandidate::push_type_param_candidates`. -/
def push_type_param_candidates (tp : TypeParamBounds) : List BoundCandidate :=
  enum_candidates
    (fun bi b =>
      ⟨BoundSite.typeParamSite tp.ident tp.param_index bi, b⟩) 0 tp.bounds

/-- Model of `BoundCandidate::push_where_candidates`. -/
def push_where_candidates (wb : WhereTypeBounds) : List BoundCandidate :=
  enum_candidates
    (fun bi b =>
      ⟨BoundSite.whereClauseSite wb.ty wb.pred_index bi, b⟩) 0 wb.bounds

/-- Model of the `collect_*_candidates` functions generated by
`define_collect_candidate_fns!`: all type-parameter candidates in order, then
all where-clause candidates in order. -/
def collect_candidates (b : BoundsItem) : List BoundCandidate :=
  (b.type_params.map push_type_param_candidates).flatten ++
    (b.where_preds.map push_where_candidates).flatten

/-- Model of `Collector::type_param_bounds`: enumerate all generic parameters,
keeping type parameters with a non-empty bound list. -/
def type_param_bounds_of_aux : Nat → List GenericParam → List TypeParamBounds
  | _, [] => []
  | idx, GenericParam.typeParam tp :: rest =>
    if tp.bounds.isEmpty then type_param_bounds_of_aux (idx + 1) rest
    else ⟨tp.ident, tp.bounds, idx⟩ :: type_param_bounds_of_aux (idx + 1) rest
  | idx, _ :: rest => type_param_bounds_of_aux (idx + 1) rest

/-- Model of `Collector::type_param_bounds` over a generics block. -/
def type_param_bounds_of (g : Generics) : List TypeParamBounds :=
  type_param_bounds_of_aux 0 g.params

/-- Model of `Collector::where_bounds`: enumerate predicates, keeping
type-shaped predicates with a non-empty bound list. -/
def where_bounds_of_aux : Nat → List WherePredicate → List WhereTypeBounds
  | _, [] => []
  | idx, WherePredicate.typePredicate tp :: rest =>
    if tp.bounds.isEmpty then where_bounds_of_aux (idx + 1) rest
    else ⟨tp.boundedTy, tp.bounds, idx⟩ :: where_bounds_of_aux (idx + 1) rest
  | idx, _ :: rest => where_bounds_of_aux (idx + 1) rest

/-- Model of `Collector::where_bounds` over a generics block. -/
def where_bounds_of (g : Generics) : List WhereTypeBounds :=
  match g.whereClause with
  | none => []
  | some preds => where_bounds_of_aux 0 preds

/-- Model of the `Collector` visit restricted to free functions (`Item::Fn`),
mirroring `push_if_any`: declarations whose generics yield no coordinate are
omitted entirely. The anchor is the signature identifier's span. -/
def collect_fn_bounds : List Node → List BoundsItem
  | [] => []
  | Node.fnNode ident anchor g :: rest =>
    let tp := type_param_bounds_of g
    let wb := where_bounds_of g
    if tp.isEmpty ∧ wb.isEmpty then collect_fn_bounds rest
    else ⟨some ident, anchor, tp, wb⟩ :: collect_fn_bounds rest
  | _ :: rest => collect_fn_bounds rest

/-- State threaded through the prune loop of `make_pruner!`: the in-memory
working tree, the current baseline source and checksum, the external state
(disk bytes, verifier-invocation count), the outcome ledger, and the caller's
`syntax` out-parameter (overwritten with the working tree on every
acceptance). -/
structure PruneState where
  working : List Node
  current_src : String
  current_hash : Nat
  ext : ExtState
  outcomes : List BoundRemovalResult
  synTree : List Node
deriving DecidableEq, Repr

/-- Model of the inner `for candidate in &candidates` loop of the pruner: try
each candidate in order; on acceptance, re-apply the accepted edit to the
working tree, promote the trial text/checksum, overwrite the caller's tree,
and stop (`break`). Returns the updated state and whether an acceptance
occurred (`removed_any`). -/
def run_candidates (env : ExternalEnv) (target_ident : Option String)
    (target_anchor : Span) :
    List BoundCandidate → PruneState → Except String (PruneState × Bool)
  | [], st => Except.ok (st, false)
  | c :: rest, st =>
    let tr := try_candidate_once env st.ext st.working target_ident
      target_anchor c st.current_src st.current_hash
    match tr.1 with
    | Except.error e => Except.error e
    | Except.ok res =>
      let st1 : PruneState :=
        { st with ext := tr.2, outcomes := st.outcomes ++ [⟨c, res.outcome⟩] }
      if res.accepted then
        let cfg : EditorCfg := ⟨target_ident, target_anchor, c⟩
        let rr := visit_file cfg false st1.working
        Except.ok
          ({ st1 with
              working := rr.2, synTree := rr.2,
              current_src := res.new_src, current_hash := res.new_hash },
            true)
      else run_candidates env target_ident target_anchor rest st1

/-- Model of the outer `while i < bounds.len()` loop of `make_pruner!`. The
index `i` is `0` and never incremented, so the loop always processes the
head of the bounds vector: candidates are re-collected from the same stale
`bounds[i]` record on every pass; after a pass without acceptance the head is
removed (`bounds.remove(i)`). `fuel` bounds the number of loop iterations;
`none` means the fuel ran out. -/
def prune_loop (env : ExternalEnv) :
    Nat → List BoundsItem → PruneState → Option (Except String PruneState)
  | 0, _, _ => none
  | Nat.succ fuel, bounds, st =>
    match bounds with
    | [] => some (Except.ok st)
    | item :: rest =>
      let cands := collect_candidates item
      match run_candidates env item.ident item.anchor cands st with
      | Except.error e => some (Except.error e)
      | Except.ok (st1, removed_any) =>
        if removed_any then prune_loop env fuel (item :: rest) st1
        else prune_loop env fuel rest st1

/-- Model of `PruneItem::prune_function_bounds` (the `make_pruner!` instance
for free functions; all instances share this body): read the baseline source
from disk, hash it, clone the parsed tree as the working tree, and run the
loop. -/
def prune_function_bounds (env : ExternalEnv) (fuel : Nat) (ext : ExtState)
    (tree : List Node) (bounds : List BoundsItem) :
    Option (Except String PruneState) :=
  let original_src := ext.disk
  let original_hash := env.hash_bytes original_src
  prune_loop env fuel bounds
    ⟨tree, original_src, original_hash, ext, [], tree⟩

/-- Number of bounds carried by one generic parameter. -/
def param_bound_size : GenericParam → Nat
  | GenericParam.typeParam tp => tp.bounds.length
  | _ => 0

/-- Number of bounds carried by one where predicate. -/
def pred_bound_size : WherePredicate → Nat
  | WherePredicate.typePredicate tp => tp.bounds.length
  | _ => 0

/-- Total number of bounds in a generics block (type-parameter bounds plus
where-clause bounds); the termination measure component for one item. -/
def generics_bound_count (g : Generics) : Nat :=
  (g.params.map param_bound_size).sum +
  (match g.whereClause with
   | none => 0
   | some preds => (preds.map pred_bound_size).sum)

/-- Total number of bounds in a method node. -/
def method_bound_count (m : MethodNode) : Nat := generics_bound_count m.generics

/-- Total number of bounds in a node, methods included. -/
def node_bound_count : Node → Nat
  | Node.fnNode _ _ g => generics_bound_count g
  | Node.structNode _ _ g => generics_bound_count g
  | Node.enumNode _ _ g => generics_bound_count g
  | Node.traitNode _ _ g ms =>
    generics_bound_count g + (ms.map method_bound_count).sum
  | Node.implNode _ g ms =>
    generics_bound_count g + (ms.map method_bound_count).sum

/-- Total number of bounds in a file. -/
def file_bound_count (ns : List Node) : Nat := (ns.map node_bound_count).sum

/-- Whether a node site (identifier and anchor) matches the editor's target:
the anchor spans must be equal, and when both an expected and an actual
identifier are present they must agree (matching the guard sequence in
`try_edit_node`). -/
def site_matches (cfg : EditorCfg) (node_ident : Option String)
    (node_anchor : Span) : Bool :=
  spans_equal node_anchor cfg.target_anchor &&
    (match cfg.target_ident, node_ident with
     | some want, some got => want == got
     | _, _ => true)

/-- Whether a candidate's coordinate exists in the given generics block: for a
type-parameter site, the indexed parameter must be a type parameter and the
bound index in range; for a where site, the indexed predicate must exist, be
type-shaped, and the bound index in range. -/
def coord_exists (g : Generics) (c : BoundCandidate) : Bool :=
  match c.site with
  | BoundSite.typeParamSite _ k j =>
    match g.params[k]? with
    | some (GenericParam.typeParam tp) => j < tp.bounds.length
    | _ => false
  | BoundSite.whereClauseSite _ p j =>
    match g.whereClause with
    | none => false
    | some preds =>
      match preds[p]? with
      | some (WherePredicate.typePredicate tp) => j < tp.bounds.length
      | _ => false

/-- The list of `(identifier, anchor, generics)` sites the editor's traversal
can reach inside a node: the node's own site, plus (for traits and impls) the
sites of its directly nested methods. -/
def node_sites : Node → List (Option String × Span × Generics)
  | Node.fnNode i a g => [(some i, a, g)]
  | Node.structNode i a g => [(some i, a, g)]
  | Node.enumNode i a g => [(some i, a, g)]
  | Node.traitNode i a g ms =>
    (some i, a, g) :: ms.map (fun m => (some m.ident, m.anchor, m.generics))
  | Node.implNode a g ms =>
    (none, a, g) :: ms.map (fun m => (some m.ident, m.anchor, m.generics))

/-- Number of positions at which two item lists differ. -/
def changed_count : List Node → List Node → Nat
  | [], _ => 0
  | _ :: _, [] => 0
  | x :: xs, y :: ys => (if x = y then 0 else 1) + changed_count xs ys

/- A small concrete instantiation of the external collaborators, used to
evaluate the engine on concrete scenarios: a simple injective pretty-printer
for the node model, and the text length as checksum. -/

/-- Concrete demo span: distinct inputs give distinct spans. -/
def demo_span (n : Nat) : Span := ⟨n, n + 1, "demo.rs", n, 0, n, 1⟩

/-- Concrete serialization of a bound list. -/
def bounds_text (bs : List Bound) : String := String.intercalate "+" bs

/-- Concrete serialization of a generic parameter. -/
def param_text : GenericParam → String
  | GenericParam.lifetimeParam => "lt"
  | GenericParam.constParam => "const"
  | GenericParam.typeParam tp =>
    tp.ident ++ (if tp.colonToken then ":" else "") ++ bounds_text tp.bounds

/-- Concrete serialization of a where predicate. -/
def pred_text : WherePredicate → String
  | WherePredicate.typePredicate tp =>
    tp.boundedTy ++ ":" ++ bounds_text tp.bounds
  | WherePredicate.lifetimePredicate => "ltpred"

/-- Concrete serialization of a generics block. -/
def generics_text (g : Generics) : String :=
  "<" ++ String.intercalate "," (g.params.map param_text) ++ ">" ++
    (match g.whereClause with
     | none => ""
     | some preds =>
       " where " ++ String.intercalate "," (preds.map pred_text))

/-- Concrete serialization of a nested method. -/
def method_text (m : MethodNode) : String :=
  "fn " ++ m.ident ++ generics_text m.generics

/-- Concrete serialization of one item. -/
def node_text : Node → String
  | Node.fnNode i _ g => "fn " ++ i ++ generics_text g
  | Node.structNode i _ g => "struct " ++ i ++ generics_text g
  | Node.enumNode i _ g => "enum " ++ i ++ generics_text g
  | Node.traitNode i _ g ms =>
    "trait " ++ i ++ generics_text g ++ " (" ++
      String.intercalate ";" (ms.map method_text) ++ ")"
  | Node.implNode _ g ms =>
    "impl" ++ generics_text g ++ " (" ++
      String.intercalate ";" (ms.map method_text) ++ ")"

/-- Concrete stand-in for `prettyplease::unparse`. -/
def demo_unparse (ns : List Node) : String :=
  String.intercalate "\n" (ns.map node_text)

/-- Concrete stand-in for `crc32fast::hash` (text length; collision-free on
the finitely many texts arising in the scenarios below). -/
def demo_hash (s : String) : Nat := s.length

/-- Extract the final engine state from a pruner result, with a default for
the failure cases. -/
def result_state : Option (Except String PruneState) → PruneState
  | some (Except.ok st) => st
  | _ => ⟨[], "", 0, ⟨"", 0⟩, [], []⟩

/- Shared concrete scenario data for witnesses and counterexamples. -/

/-- One function `fn f<T: A>` (anchor span 1). -/
def demo_tree_one : List Node :=
  [Node.fnNode "f" (demo_span 1)
    ⟨[GenericParam.typeParam ⟨"T", true, ["A"]⟩], none⟩]

/-- Baseline text of `demo_tree_one`. -/
def demo_src_one : String := demo_unparse demo_tree_one

/-- The single candidate of `demo_tree_one`. -/
def demo_cand_one : BoundCandidate := ⟨BoundSite.typeParamSite "T" 0 0, "A"⟩

/-- Oracle rejecting every trial. -/
def env_reject : ExternalEnv :=
  ⟨demo_unparse, demo_hash, fun _ => some ⟨false, "", ""⟩⟩

/-- Oracle accepting every trial. -/
def env_accept : ExternalEnv :=
  ⟨demo_unparse, demo_hash, fun _ => some ⟨true, "", ""⟩⟩

/-- Oracle whose invocation itself fails (spawn error). -/
def env_error : ExternalEnv := ⟨demo_unparse, demo_hash, fun _ => none⟩

/- Concrete scenario for C1: one function `fn f<T: A + B>` with an oracle
accepting every trial. -/

/-- One function `fn f<T: A + B>` (anchor span 1). -/
def stale_tree : List Node :=
  [Node.fnNode "f" (demo_span 1)
    ⟨[GenericParam.typeParam ⟨"T", true, ["A", "B"]⟩], none⟩]

/-- The pruner run on `stale_tree` with the accept-everything oracle. -/
def stale_run : Option (Except String PruneState) :=
  prune_function_bounds env_accept 10 ⟨demo_unparse stale_tree, 0⟩
    stale_tree (collect_fn_bounds stale_tree)

/- Concrete scenario for C8: two nodes carrying the same anchor span and
name; the candidate's coordinate is invalid in the first and valid in the
second. -/

/-- Editor configuration targeting anchor span 1, name `f`, bound `(0, 0)`. -/
def dup_anchor_cfg : EditorCfg :=
  ⟨some "f", demo_span 1, ⟨BoundSite.typeParamSite "T" 0 0, "A"⟩⟩

/-- Two `fn f` nodes with identical anchors: the first has no bounds (the
coordinate does not apply), the second carries bound `A`. -/
def dup_nodes : List Node :=
  [Node.fnNode "f" (demo_span 1)
     ⟨[GenericParam.typeParam ⟨"T", false, []⟩], none⟩,
   Node.fnNode "f" (demo_span 1)
     ⟨[GenericParam.typeParam ⟨"T", true, ["A"]⟩], none⟩]

/- Concrete scenario for C9: two functions whose bounds interact through the
oracle. `fn f<T: A>` is processed first and dropped; only afterwards does
removing `B` from `fn g<U: B>` succeed, which makes removing `A` succeed on
a second run. -/

/-- Two functions `fn f<T: A>` and `fn g<U: B>`. -/
def interact_tree : List Node :=
  [Node.fnNode "f" (demo_span 1)
     ⟨[GenericParam.typeParam ⟨"T", true, ["A"]⟩], none⟩,
   Node.fnNode "g" (demo_span 2)
     ⟨[GenericParam.typeParam ⟨"U", true, ["B"]⟩], none⟩]

/-- Text of the tree with only `B` removed. -/
def interact_tb : String :=
  demo_unparse
    [Node.fnNode "f" (demo_span 1)
       ⟨[GenericParam.typeParam ⟨"T", true, ["A"]⟩], none⟩,
     Node.fnNode "g" (demo_span 2)
       ⟨[GenericParam.typeParam ⟨"U", false, []⟩], none⟩]

/-- Text of the tree with both bounds removed. -/
def interact_tab : String :=
  demo_unparse
    [Node.fnNode "f" (demo_span 1)
       ⟨[GenericParam.typeParam ⟨"T", false, []⟩], none⟩,
     Node.fnNode "g" (demo_span 2)
       ⟨[GenericParam.typeParam ⟨"U", false, []⟩], none⟩]

/-- Deterministic oracle: the build succeeds exactly when `B` is gone. -/
def interact_env : ExternalEnv :=
  ⟨demo_unparse, demo_hash,
    fun s => some ⟨s = interact_tb ∨ s = interact_tab, "", ""⟩⟩

/-- First prune run on the baseline. -/
def interact_run1 : Option (Except String PruneState) :=
  prune_function_bounds interact_env 10 ⟨demo_unparse interact_tree, 0⟩
    interact_tree (collect_fn_bounds interact_tree)

/-- Final state of the first run. -/
def interact_st1 : PruneState := result_state interact_run1

/-- Second prune run, on the source text and tree produced by the first run,
with bounds freshly extracted. -/
def interact_run2 : Option (Except String PruneState) :=
  prune_function_bounds interact_env 10 ⟨interact_st1.ext.disk, 0⟩
    interact_st1.working (collect_fn_bounds interact_st1.working)

/-- Final state of the second run. -/
def interact_st2 : PruneState := result_state interact_run2

/-- First prune run of the all-rejecting scenario used to witness the
amended C9. -/
def noremove_run : Option (Except String PruneState) :=
  prune_function_bounds env_reject 10 ⟨demo_src_one, 0⟩ demo_tree_one
    (collect_fn_bounds demo_tree_one)

/-- Final state of `noremove_run`. -/
def noremove_st : PruneState := result_state noremove_run

/- Basic lemmas about the kept-loop and the remove functions. -/

theorem kept_filter_of_lt (idx i : Nat) (l : List α) (h : idx < i) :
    kept_filter idx i l = l := by
  induction l generalizing i with
  | nil => rfl
  | cons v rest ih =>
    simp only [kept_filter]
    rw [if_pos (by omega)]
    rw [ih (i + 1) (by omega)]

theorem kept_filter_eq_eraseIdx (idx i : Nat) (l : List α) (h : i ≤ idx) :
    kept_filter idx i l = l.eraseIdx (idx - i) := by
  induction l generalizing i with
  | nil => rfl
  | cons v rest ih =>
    simp only [kept_filter]
    by_cases hi : i = idx
    · subst hi
      rw [if_neg (by simp)]
      rw [Nat.sub_self, List.eraseIdx_cons_zero]
      exact kept_filter_of_lt i (i + 1) rest (by omega)
    · rw [if_pos hi]
      have hx : idx - i = (idx - (i + 1)) + 1 := by omega
      rw [hx, List.eraseIdx_cons_succ, ih (i + 1) (by omega)]

theorem remove_punctuated_at_of_lt (l : List α) (idx : Nat)
    (h : idx < l.length) :
    remove_punctuated_at l idx = (l.eraseIdx idx, true) := by
  unfold remove_punctuated_at
  rw [if_neg (by omega)]
  rw [kept_filter_eq_eraseIdx idx 0 l (Nat.zero_le idx), Nat.sub_zero]

theorem remove_punctuated_at_of_ge (l : List α) (idx : Nat)
    (h : l.length ≤ idx) :
    remove_punctuated_at l idx = (l, false) := by
  unfold remove_punctuated_at
  rw [if_pos h]

theorem remove_punctuated_at_false (l : List α) (idx : Nat)
    (h : (remove_punctuated_at l idx).2 = false) :
    (remove_punctuated_at l idx).1 = l := by
  by_cases hlt : idx < l.length
  · rw [remove_punctuated_at_of_lt l idx hlt] at h
    simp at h
  · rw [remove_punctuated_at_of_ge l idx (by omega)]

theorem remove_punctuated_at_true (l : List α) (idx : Nat)
    (h : (remove_punctuated_at l idx).2 = true) : idx < l.length := by
  by_cases hlt : idx < l.length
  · exact hlt
  · rw [remove_punctuated_at_of_ge l idx (by omega)] at h
    simp at h

theorem remove_punctuated_at_eq_false (l : List α) (idx : Nat)
    (h : (remove_punctuated_at l idx).2 = false) :
    remove_punctuated_at l idx = (l, false) := by
  by_cases hlt : idx < l.length
  · rw [remove_punctuated_at_of_lt l idx hlt] at h
    simp at h
  · exact remove_punctuated_at_of_ge l idx (by omega)

theorem remove_punctuated_at_length (l : List α) (idx : Nat)
    (h : idx < l.length) :
    (remove_punctuated_at l idx).1.length = l.length - 1 := by
  rw [remove_punctuated_at_of_lt l idx h]
  simp [List.length_eraseIdx, h]

theorem drop_predicate_at_of_lt (preds : List WherePredicate) (idx : Nat)
    (h : idx < preds.length) :
    drop_predicate_at preds idx = preds.eraseIdx idx := by
  unfold drop_predicate_at
  rw [if_neg (by omega)]
  rw [kept_filter_eq_eraseIdx idx 0 preds (Nat.zero_le idx), Nat.sub_zero]

theorem list_set_self {l : List α} {n : Nat} {a : α} (h : l[n]? = some a) :
    l.set n a = l := by
  apply List.ext_getElem?
  intro m
  by_cases hm : m = n
  · subst hm
    rw [List.getElem?_set_self]
    · simpa using h.symm
    · have := List.getElem?_eq_some.mp h
      exact this.1
  · rw [List.getElem?_set_ne (by omega)]

theorem remove_tp_bound_false (g : Generics) (pi bi : Nat)
    (h : (remove_tp_bound_by_index g pi bi).2 = false) :
    (remove_tp_bound_by_index g pi bi).1 = g := by
  unfold remove_tp_bound_by_index at h ⊢
  cases hp : g.params[pi]? with
  | none => simp [hp]
  | some p =>
    cases p with
    | lifetimeParam => simp [hp]
    | constParam => simp [hp]
    | typeParam tp =>
      simp only [hp] at h ⊢
      have hfe := remove_punctuated_at_eq_false tp.bounds bi h
      rw [hfe]
      have hset : g.params.set pi (GenericParam.typeParam tp) = g.params :=
        list_set_self hp
      simp [hset]

theorem remove_where_bound_false (g : Generics) (pi bi : Nat)
    (h : (remove_where_bound_by_index g pi bi).2 = false) :
    (remove_where_bound_by_index g pi bi).1 = g := by
  unfold remove_where_bound_by_index at h ⊢
  cases hw : g.whereClause with
  | none => simp [hw]
  | some preds =>
    simp only [hw] at h ⊢
    cases hp : preds[pi]? with
    | none => simp [hp]
    | some p =>
      cases p with
      | lifetimePredicate => simp [hp]
      | typePredicate tp =>
        simp only [hp] at h ⊢
        by_cases hr : (remove_punctuated_at tp.bounds bi).2 = true
        · simp only [hr, true_and] at h
          by_cases he : ((remove_punctuated_at tp.bounds bi).1).isEmpty
          · simp only [he, if_true] at h
            by_cases h3 : (drop_predicate_at (preds.set pi
                (WherePredicate.typePredicate
                  { tp with bounds := (remove_punctuated_at tp.bounds bi).1 }))
                pi).isEmpty
            · simp [h3] at h
            · simp [h3] at h
          · simp [he] at h
        · simp only [Bool.not_eq_true] at hr
          have hfe := remove_punctuated_at_eq_false tp.bounds bi hr
          rw [hfe]
          have hset : preds.set pi (WherePredicate.typePredicate tp) = preds :=
            list_set_self hp
          simp only [Prod.fst, Prod.snd]
          simp [hset, ← hw]

theorem apply_to_item_false (g : Generics) (c : BoundCandidate)
    (h : (apply_to_item_with_generics g c).2 = false) :
    (apply_to_item_with_generics g c).1 = g := by
  obtain ⟨site, bound⟩ := c
  cases site with
  | typeParamSite i pi bi =>
    simp only [apply_to_item_with_generics] at h ⊢
    exact remove_tp_bound_false g pi bi h
  | whereClauseSite t pi bi =>
    simp only [apply_to_item_with_generics] at h ⊢
    exact remove_where_bound_false g pi bi h

/- Short-circuit lemmas: once the modified flag is set, nothing changes. -/

theorem try_edit_node_modified (cfg : EditorCfg) (oi : Option String)
    (a : Span) (g : Generics) :
    try_edit_node cfg true oi a g = (true, g) := by
  simp [try_edit_node]

theorem visit_method_modified (cfg : EditorCfg) (m : MethodNode) :
    visit_method cfg true m = (true, m) := by
  simp [visit_method, try_edit_node_modified]

theorem visit_methods_modified (cfg : EditorCfg) (ms : List MethodNode) :
    visit_methods cfg true ms = (true, ms) := by
  induction ms with
  | nil => rfl
  | cons m rest ih =>
    simp [visit_methods, visit_method_modified, ih]

theorem visit_node_modified (cfg : EditorCfg) (n : Node) :
    visit_node cfg true n = (true, n) := by
  cases n <;> simp [visit_node, try_edit_node_modified]

theorem visit_file_modified (cfg : EditorCfg) (ns : List Node) :
    visit_file cfg true ns = (true, ns) := by
  induction ns with
  | nil => rfl
  | cons n rest ih =>
    simp [visit_file, visit_node_modified, ih]

/- Unchanged-when-unmodified lemmas: if the flag stays false, nothing moved. -/

theorem try_edit_node_not_modified (cfg : EditorCfg) (oi : Option String)
    (a : Span) (g : Generics)
    (h : (try_edit_node cfg false oi a g).1 = false) :
    (try_edit_node cfg false oi a g).2 = g := by
  unfold try_edit_node at h ⊢
  simp only [if_neg (by simp : ¬ (false = true))] at h ⊢
  by_cases hs : spans_equal a cfg.target_anchor
  · simp only [hs] at h ⊢
    cases hti : cfg.target_ident with
    | none =>
      simp only [hti] at h ⊢
      cases oi with
      | none => exact apply_to_item_false g cfg.candidate h
      | some got => exact apply_to_item_false g cfg.candidate h
    | some want =>
      simp only [hti] at h ⊢
      cases oi with
      | none => exact apply_to_item_false g cfg.candidate h
      | some got =>
        by_cases hw : want = got
        · simp only [hw] at h ⊢
          simp only [ne_eq, not_true_eq_false, if_neg] at h ⊢
          simp only [if_neg (by simp : ¬ False)] at h ⊢
          exact apply_to_item_false g cfg.candidate h
        · simp [hw] at h ⊢
  · simp [hs]

theorem visit_method_not_modified (cfg : EditorCfg) (m : MethodNode)
    (h : (visit_method cfg false m).1 = false) :
    (visit_method cfg false m).2 = m := by
  unfold visit_method at h ⊢
  simp only at h ⊢
  have := try_edit_node_not_modified cfg (some m.ident) m.anchor m.generics h
  simp [this]

theorem visit_methods_not_modified (cfg : EditorCfg) (ms : List MethodNode)
    (h : (visit_methods cfg false ms).1 = false) :
    (visit_methods cfg false ms).2 = ms := by
  induction ms with
  | nil => rfl
  | cons m rest ih =>
    unfold visit_methods at h ⊢
    simp only at h ⊢
    cases hm : (visit_method cfg false m).1 with
    | false =>
      rw [hm] at h
      rw [visit_method_not_modified cfg m hm]
      rw [ih h]
    | true =>
      rw [hm] at h
      rw [visit_methods_modified] at h
      simp at h

theorem visit_node_not_modified (cfg : EditorCfg) (n : Node)
    (h : (visit_node cfg false n).1 = false) :
    (visit_node cfg false n).2 = n := by
  cases n with
  | fnNode ident anchor g =>
    unfold visit_node at h ⊢
    simp only at h ⊢
    rw [try_edit_node_not_modified cfg (some ident) anchor g h]
  | structNode ident anchor g =>
    unfold visit_node at h ⊢
    simp only at h ⊢
    rw [try_edit_node_not_modified cfg (some ident) anchor g h]
  | enumNode ident anchor g =>
    unfold visit_node at h ⊢
    simp only at h ⊢
    rw [try_edit_node_not_modified cfg (some ident) anchor g h]
  | traitNode ident anchor g methods =>
    unfold visit_node at h ⊢
    cases ht : (try_edit_node cfg false (some ident) anchor g).1 with
    | false =>
      simp only [ht, if_neg (by simp : ¬ (false = true))] at h ⊢
      rw [try_edit_node_not_modified cfg (some ident) anchor g ht]
      rw [visit_methods_not_modified cfg methods h]
    | true =>
      simp only [ht, if_pos rfl] at h
      simp at h
  | implNode anchor g methods =>
    unfold visit_node at h ⊢
    cases ht : (try_edit_node cfg false none anchor g).1 with
    | false =>
      simp only [ht, if_neg (by simp : ¬ (false = true))] at h ⊢
      rw [try_edit_node_not_modified cfg none anchor g ht]
      rw [visit_methods_not_modified cfg methods h]
    | true =>
      simp only [ht, if_pos rfl] at h
      simp at h

theorem visit_file_not_modified (cfg : EditorCfg) (ns : List Node)
    (h : (visit_file cfg false ns).1 = false) :
    (visit_file cfg false ns).2 = ns := by
  induction ns with
  | nil => rfl
  | cons n rest ih =>
    unfold visit_file at h ⊢
    simp only at h ⊢
    cases hn : (visit_node cfg false n).1 with
    | false =>
      rw [hn] at h
      rw [visit_node_not_modified cfg n hn]
      rw [ih h]
    | true =>
      rw [hn] at h
      rw [visit_file_modified] at h
      simp at h

/- Arithmetic helpers about sums of mapped lists, used for the termination
measure. -/

theorem sum_map_set_lt (f : α → Nat) (l : List α) (n : Nat) (a b : α)
    (h : l[n]? = some a) (hf : f b < f a) :
    ((l.set n b).map f).sum < (l.map f).sum := by
  induction l generalizing n with
  | nil => simp at h
  | cons x xs ih =>
    cases n with
    | zero =>
      simp only [List.getElem?_cons_zero, Option.some.injEq] at h
      subst h
      simp only [List.set_cons_zero, List.map_cons, List.sum_cons]
      omega
    | succ m =>
      simp only [List.getElem?_cons_succ] at h
      simp only [List.set_cons_succ, List.map_cons, List.sum_cons]
      have := ih m h
      omega

theorem sum_map_eraseIdx_le (f : α → Nat) (l : List α) (n : Nat) :
    ((l.eraseIdx n).map f).sum ≤ (l.map f).sum := by
  induction l generalizing n with
  | nil => simp
  | cons x xs ih =>
    cases n with
    | zero => simp [List.eraseIdx_cons_zero]
    | succ m =>
      simp only [List.eraseIdx_cons_succ, List.map_cons, List.sum_cons]
      have := ih m
      omega

theorem sum_map_getElem_le (f : α → Nat) (l : List α) (n : Nat) (a : α)
    (h : l[n]? = some a) : f a ≤ (l.map f).sum := by
  induction l generalizing n with
  | nil => simp at h
  | cons x xs ih =>
    cases n with
    | zero =>
      simp only [List.getElem?_cons_zero, Option.some.injEq] at h
      subst h
      simp only [List.map_cons, List.sum_cons]
      omega
    | succ m =>
      simp only [List.getElem?_cons_succ] at h
      simp only [List.map_cons, List.sum_cons]
      have := ih m h
      omega

/- A successful removal strictly decreases the total bound count of the
generics block. -/

theorem generics_bound_count_set_param (g : Generics) (pi : Nat)
    (tp tp2 : TypeParamData)
    (hp : g.params[pi]? = some (GenericParam.typeParam tp))
    (hlen : tp2.bounds.length < tp.bounds.length) :
    generics_bound_count
        { g with params := g.params.set pi (GenericParam.typeParam tp2) } <
      generics_bound_count g := by
  unfold generics_bound_count
  have hs := sum_map_set_lt param_bound_size g.params pi
    (GenericParam.typeParam tp) (GenericParam.typeParam tp2) hp
    (by simpa [param_bound_size] using hlen)
  simp only
  omega

theorem generics_bound_count_where_some (g : Generics)
    (preds preds2 : List WherePredicate) (hw : g.whereClause = some preds)
    (hlt : (preds2.map pred_bound_size).sum < (preds.map pred_bound_size).sum) :
    generics_bound_count { g with whereClause := some preds2 } <
      generics_bound_count g := by
  unfold generics_bound_count
  simp only
  rw [hw]
  simp only
  omega

theorem generics_bound_count_where_none (g : Generics)
    (preds : List WherePredicate) (hw : g.whereClause = some preds)
    (hpos : 0 < (preds.map pred_bound_size).sum) :
    generics_bound_count { g with whereClause := none } <
      generics_bound_count g := by
  unfold generics_bound_count
  simp only
  rw [hw]
  simp only
  omega

theorem remove_tp_bound_true_count (g : Generics) (pi bi : Nat)
    (h : (remove_tp_bound_by_index g pi bi).2 = true) :
    generics_bound_count (remove_tp_bound_by_index g pi bi).1 <
      generics_bound_count g := by
  unfold remove_tp_bound_by_index at h ⊢
  cases hp : g.params[pi]? with
  | none => rw [hp] at h; simp at h
  | some p =>
    cases p with
    | lifetimeParam => rw [hp] at h; simp at h
    | constParam => rw [hp] at h; simp at h
    | typeParam tp =>
      rw [hp] at h
      simp only at h ⊢
      have hlt := remove_punctuated_at_true tp.bounds bi h
      have hre := remove_punctuated_at_of_lt tp.bounds bi hlt
      rw [hre]
      simp only
      apply generics_bound_count_set_param g pi tp _ hp
      simp only
      rw [List.length_eraseIdx]
      simp [hlt]
      omega

theorem remove_where_bound_true_count (g : Generics) (pi bi : Nat)
    (h : (remove_where_bound_by_index g pi bi).2 = true) :
    generics_bound_count (remove_where_bound_by_index g pi bi).1 <
      generics_bound_count g := by
  unfold remove_where_bound_by_index at h ⊢
  cases hw : g.whereClause with
  | none => rw [hw] at h; simp at h
  | some preds =>
    rw [hw] at h
    simp only at h ⊢
    cases hp : preds[pi]? with
    | none => rw [hp] at h; simp at h
    | some p =>
      cases p with
      | lifetimePredicate => rw [hp] at h; simp at h
      | typePredicate tp =>
        rw [hp] at h
        simp only at h ⊢
        have h2 : (remove_punctuated_at tp.bounds bi).2 = true := by
          split_ifs at h <;> simpa using h
        have hlt := remove_punctuated_at_true tp.bounds bi h2
        have hre := remove_punctuated_at_of_lt tp.bounds bi hlt
        rw [hre]
        simp only
        have hpilen : pi < preds.length := by
          have := List.getElem?_eq_some.mp hp
          exact this.1
        have hsetlt : ((preds.set pi (WherePredicate.typePredicate
            { tp with bounds := tp.bounds.eraseIdx bi })).map
              pred_bound_size).sum <
            (preds.map pred_bound_size).sum := by
          apply sum_map_set_lt pred_bound_size preds pi
            (WherePredicate.typePredicate tp) _ hp
          simp only [pred_bound_size]
          rw [List.length_eraseIdx]
          simp [hlt]
          omega
        split_ifs with hc1 hc2
        · apply generics_bound_count_where_none g preds hw
          have hle := sum_map_getElem_le pred_bound_size preds pi
            (WherePredicate.typePredicate tp) hp
          have hsz : pred_bound_size (WherePredicate.typePredicate tp) =
              tp.bounds.length := rfl
          omega
        · apply generics_bound_count_where_some g preds _ hw
          have hpilen2 : pi < (preds.set pi (WherePredicate.typePredicate
              { tp with bounds := tp.bounds.eraseIdx bi })).length := by
            simpa using hpilen
          rw [drop_predicate_at_of_lt _ pi hpilen2]
          have hle := sum_map_eraseIdx_le pred_bound_size
            (preds.set pi (WherePredicate.typePredicate
              { tp with bounds := tp.bounds.eraseIdx bi })) pi
          omega
        · exact generics_bound_count_where_some g preds _ hw hsetlt

theorem apply_to_item_true_count (g : Generics) (c : BoundCandidate)
    (h : (apply_to_item_with_generics g c).2 = true) :
    generics_bound_count (apply_to_item_with_generics g c).1 <
      generics_bound_count g := by
  obtain ⟨site, bound⟩ := c
  cases site with
  | typeParamSite i pi bi =>
    simp only [apply_to_item_with_generics] at h ⊢
    exact remove_tp_bound_true_count g pi bi h
  | whereClauseSite t pi bi =>
    simp only [apply_to_item_with_generics] at h ⊢
    exact remove_where_bound_true_count g pi bi h

theorem try_edit_node_true_count (cfg : EditorCfg) (oi : Option String)
    (a : Span) (g : Generics)
    (h : (try_edit_node cfg false oi a g).1 = true) :
    generics_bound_count (try_edit_node cfg false oi a g).2 <
      generics_bound_count g := by
  unfold try_edit_node at h ⊢
  simp only [if_neg (by simp : ¬ (false = true))] at h ⊢
  by_cases hs : spans_equal a cfg.target_anchor
  · simp only [hs] at h ⊢
    cases hti : cfg.target_ident with
    | none =>
      simp only [hti] at h ⊢
      cases oi with
      | none => exact apply_to_item_true_count g cfg.candidate h
      | some got => exact apply_to_item_true_count g cfg.candidate h
    | some want =>
      simp only [hti] at h ⊢
      cases oi with
      | none => exact apply_to_item_true_count g cfg.candidate h
      | some got =>
        by_cases hwg : want = got
        · simp only [hwg] at h ⊢
          simp only [ne_eq, not_true_eq_false, if_neg] at h ⊢
          simp only [if_neg (by simp : ¬ False)] at h ⊢
          exact apply_to_item_true_count g cfg.candidate h
        · simp [hwg] at h
  · simp [hs] at h

theorem visit_method_true_count (cfg : EditorCfg) (m : MethodNode)
    (h : (visit_method cfg false m).1 = true) :
    method_bound_count (visit_method cfg false m).2 < method_bound_count m := by
  unfold visit_method at h ⊢
  simp only at h ⊢
  have := try_edit_node_true_count cfg (some m.ident) m.anchor m.generics h
  simpa [method_bound_count] using this

theorem visit_methods_true_count (cfg : EditorCfg) (ms : List MethodNode)
    (h : (visit_methods cfg false ms).1 = true) :
    ((visit_methods cfg false ms).2.map method_bound_count).sum <
      (ms.map method_bound_count).sum := by
  induction ms with
  | nil => simp [visit_methods] at h
  | cons m rest ih =>
    unfold visit_methods at h ⊢
    simp only at h ⊢
    cases hm : (visit_method cfg false m).1 with
    | false =>
      rw [hm] at h
      rw [visit_method_not_modified cfg m hm]
      simp only [List.map_cons, List.sum_cons]
      have := ih h
      omega
    | true =>
      rw [visit_methods_modified]
      simp only [List.map_cons, List.sum_cons]
      have := visit_method_true_count cfg m hm
      omega

theorem visit_node_true_count (cfg : EditorCfg) (n : Node)
    (h : (visit_node cfg false n).1 = true) :
    node_bound_count (visit_node cfg false n).2 < node_bound_count n := by
  cases n with
  | fnNode ident anchor g =>
    unfold visit_node at h ⊢
    simp only at h ⊢
    simpa [node_bound_count] using
      try_edit_node_true_count cfg (some ident) anchor g h
  | structNode ident anchor g =>
    unfold visit_node at h ⊢
    simp only at h ⊢
    simpa [node_bound_count] using
      try_edit_node_true_count cfg (some ident) anchor g h
  | enumNode ident anchor g =>
    unfold visit_node at h ⊢
    simp only at h ⊢
    simpa [node_bound_count] using
      try_edit_node_true_count cfg (some ident) anchor g h
  | traitNode ident anchor g methods =>
    unfold visit_node at h ⊢
    cases ht : (try_edit_node cfg false (some ident) anchor g).1 with
    | true =>
      simp only [ht, if_true] at h ⊢
      have hg := try_edit_node_true_count cfg (some ident) anchor g ht
      simp only [node_bound_count]
      omega
    | false =>
      simp only [ht, if_neg (by simp : ¬ (false = true))] at h ⊢
      rw [try_edit_node_not_modified cfg (some ident) anchor g ht]
      have hm := visit_methods_true_count cfg methods h
      simp only [node_bound_count]
      omega
  | implNode anchor g methods =>
    unfold visit_node at h ⊢
    cases ht : (try_edit_node cfg false none anchor g).1 with
    | true =>
      simp only [ht, if_true] at h ⊢
      have hg := try_edit_node_true_count cfg none anchor g ht
      simp only [node_bound_count]
      omega
    | false =>
      simp only [ht, if_neg (by simp : ¬ (false = true))] at h ⊢
      rw [try_edit_node_not_modified cfg none anchor g ht]
      have hm := visit_methods_true_count cfg methods h
      simp only [node_bound_count]
      omega

theorem visit_file_true_count (cfg : EditorCfg) (ns : List Node)
    (h : (visit_file cfg false ns).1 = true) :
    file_bound_count (visit_file cfg false ns).2 < file_bound_count ns := by
  induction ns with
  | nil => simp [visit_file] at h
  | cons n rest ih =>
    unfold visit_file at h ⊢
    simp only at h ⊢
    cases hn : (visit_node cfg false n).1 with
    | false =>
      rw [hn] at h
      rw [visit_node_not_modified cfg n hn]
      simp only [file_bound_count, List.map_cons, List.sum_cons]
      have := ih h
      simp only [file_bound_count] at this
      omega
    | true =>
      rw [visit_file_modified]
      simp only [file_bound_count, List.map_cons, List.sum_cons]
      have := visit_node_true_count cfg n hn
      omega

/- Characterization of the four exit paths of `try_candidate_once`. -/

theorem try_candidate_once_skipped (env : ExternalEnv) (st : ExtState)
    (w : List Node) (ti : Option String) (ta : Span) (c : BoundCandidate)
    (cs : String) (ch : Nat)
    (h : (visit_file ⟨ti, ta, c⟩ false w).1 = false ∨
      env.hash_bytes (env.unparse (visit_file ⟨ti, ta, c⟩ false w).2) = ch) :
    try_candidate_once env st w ti ta c cs ch =
      (Except.ok ⟨false, BoundRemovalOutcome.skipped, cs, ch⟩, st) := by
  unfold try_candidate_once
  simp only
  rcases h with h | h
  · rw [h]
    simp
  · by_cases hm : (visit_file ⟨ti, ta, c⟩ false w).1
    · rw [if_neg (by simpa using hm)]
      rw [if_pos h]
    · rw [if_pos (by simpa using hm)]

theorem try_candidate_once_removed (env : ExternalEnv) (st : ExtState)
    (w : List Node) (ti : Option String) (ta : Span) (c : BoundCandidate)
    (cs : String) (ch : Nat) (chk : CommandOutput)
    (hmod : (visit_file ⟨ti, ta, c⟩ false w).1 = true)
    (hhash :
      env.hash_bytes (env.unparse (visit_file ⟨ti, ta, c⟩ false w).2) ≠ ch)
    (hrun :
      env.run_check (env.unparse (visit_file ⟨ti, ta, c⟩ false w).2) =
        some chk)
    (hok : chk.status_success = true) :
    try_candidate_once env st w ti ta c cs ch =
      (Except.ok
        ⟨true, BoundRemovalOutcome.removed chk,
          env.unparse (visit_file ⟨ti, ta, c⟩ false w).2,
          env.hash_bytes (env.unparse (visit_file ⟨ti, ta, c⟩ false w).2)⟩,
        ⟨env.unparse (visit_file ⟨ti, ta, c⟩ false w).2,
          st.checks_run + 1⟩) := by
  unfold try_candidate_once
  simp only
  rw [if_neg (by simpa using hmod), if_neg hhash, hrun]
  simp [hok]

theorem try_candidate_once_retained (env : ExternalEnv) (st : ExtState)
    (w : List Node) (ti : Option String) (ta : Span) (c : BoundCandidate)
    (cs : String) (ch : Nat) (chk : CommandOutput)
    (hmod : (visit_file ⟨ti, ta, c⟩ false w).1 = true)
    (hhash :
      env.hash_bytes (env.unparse (visit_file ⟨ti, ta, c⟩ false w).2) ≠ ch)
    (hrun :
      env.run_check (env.unparse (visit_file ⟨ti, ta, c⟩ false w).2) =
        some chk)
    (hfail : chk.status_success = false) :
    try_candidate_once env st w ti ta c cs ch =
      (Except.ok ⟨false, BoundRemovalOutcome.retained chk, cs, ch⟩,
        ⟨cs, st.checks_run + 1⟩) := by
  unfold try_candidate_once
  simp only
  rw [if_neg (by simpa using hmod), if_neg hhash, hrun]
  simp [hfail]

theorem try_candidate_once_check_error (env : ExternalEnv) (st : ExtState)
    (w : List Node) (ti : Option String) (ta : Span) (c : BoundCandidate)
    (cs : String) (ch : Nat)
    (hmod : (visit_file ⟨ti, ta, c⟩ false w).1 = true)
    (hhash :
      env.hash_bytes (env.unparse (visit_file ⟨ti, ta, c⟩ false w).2) ≠ ch)
    (hrun :
      env.run_check (env.unparse (visit_file ⟨ti, ta, c⟩ false w).2) = none) :
    try_candidate_once env st w ti ta c cs ch =
      (Except.error "running cargo check",
        ⟨env.unparse (visit_file ⟨ti, ta, c⟩ false w).2,
          st.checks_run + 1⟩) := by
  unfold try_candidate_once
  simp only
  rw [if_neg (by simpa using hmod), if_neg hhash, hrun]

theorem try_candidate_once_accepted_inv (env : ExternalEnv) (st : ExtState)
    (w : List Node) (ti : Option String) (ta : Span) (c : BoundCandidate)
    (cs : String) (ch : Nat) (res : TrialResult)
    (h : (try_candidate_once env st w ti ta c cs ch).1 = Except.ok res)
    (ha : res.accepted = true) :
    (visit_file ⟨ti, ta, c⟩ false w).1 = true := by
  by_cases hm : (visit_file ⟨ti, ta, c⟩ false w).1 = true
  · exact hm
  · rw [try_candidate_once_skipped env st w ti ta c cs ch
      (Or.inl (by simpa using hm))] at h
    simp only [Except.ok.injEq] at h
    rw [← h] at ha
    simp at ha

/- Behaviour of the inner candidate loop. -/

theorem run_candidates_no_accept (env : ExternalEnv) (ti : Option String)
    (ta : Span) (cands : List BoundCandidate) (st st1 : PruneState)
    (h : run_candidates env ti ta cands st = Except.ok (st1, false)) :
    st1.working = st.working ∧ st1.current_src = st.current_src ∧
      st1.current_hash = st.current_hash ∧ st1.synTree = st.synTree := by
  induction cands generalizing st with
  | nil =>
    unfold run_candidates at h
    simp only [Except.ok.injEq, Prod.mk.injEq] at h
    rw [← h.1]
    exact ⟨rfl, rfl, rfl, rfl⟩
  | cons c rest ih =>
    unfold run_candidates at h
    simp only at h
    cases htr : (try_candidate_once env st.ext st.working ti ta c
        st.current_src st.current_hash).1 with
    | error e => rw [htr] at h; simp at h
    | ok res =>
      rw [htr] at h
      simp only at h
      by_cases ha : res.accepted
      · rw [if_pos (by simpa using ha)] at h
        simp at h
      · rw [if_neg (by simpa using ha)] at h
        have := ih _ h
        simpa using this

theorem run_candidates_accept_count (env : ExternalEnv) (ti : Option String)
    (ta : Span) (cands : List BoundCandidate) (st st1 : PruneState)
    (h : run_candidates env ti ta cands st = Except.ok (st1, true)) :
    file_bound_count st1.working < file_bound_count st.working := by
  induction cands generalizing st with
  | nil =>
    unfold run_candidates at h
    simp at h
  | cons c rest ih =>
    unfold run_candidates at h
    simp only at h
    cases htr : (try_candidate_once env st.ext st.working ti ta c
        st.current_src st.current_hash).1 with
    | error e => rw [htr] at h; simp at h
    | ok res =>
      rw [htr] at h
      simp only at h
      by_cases ha : res.accepted
      · rw [if_pos (by simpa using ha)] at h
        simp only [Except.ok.injEq, Prod.mk.injEq] at h
        have hmod := try_candidate_once_accepted_inv env st.ext st.working
          ti ta c st.current_src st.current_hash res htr (by simpa using ha)
        have hdec := visit_file_true_count ⟨ti, ta, c⟩ st.working hmod
        rw [← h.1]
        simpa using hdec
      · rw [if_neg (by simpa using ha)] at h
        have := ih _ h
        simpa using this

/- Termination of the outer loop (the measure is the total number of bounds
in the working tree plus the number of remaining items). -/

theorem prune_loop_isSome (env : ExternalEnv) (fuel : Nat)
    (bounds : List BoundsItem) (st : PruneState)
    (h : file_bound_count st.working + bounds.length < fuel) :
    (prune_loop env fuel bounds st).isSome := by
  induction fuel generalizing bounds st with
  | zero => omega
  | succ fuel ih =>
    unfold prune_loop
    cases bounds with
    | nil => simp
    | cons item rest =>
      simp only
      cases hrc : run_candidates env item.ident item.anchor
          (collect_candidates item) st with
      | error e => simp
      | ok p =>
        obtain ⟨st1, removed_any⟩ := p
        simp only
        cases removed_any with
        | true =>
          rw [if_pos rfl]
          apply ih
          have := run_candidates_accept_count env item.ident item.anchor
            (collect_candidates item) st st1 hrc
          simp only [List.length_cons] at h ⊢
          omega
        | false =>
          rw [if_neg (by simp)]
          apply ih
          have := run_candidates_no_accept env item.ident item.anchor
            (collect_candidates item) st st1 hrc
          rw [this.1]
          simp only [List.length_cons] at h
          omega

/- A removal succeeds exactly when the coordinate exists. -/

theorem apply_true_iff_coord_exists (g : Generics) (c : BoundCandidate) :
    (apply_to_item_with_generics g c).2 = true ↔ coord_exists g c = true := by
  obtain ⟨site, bound⟩ := c
  cases site with
  | typeParamSite i k j =>
    simp only [apply_to_item_with_generics, coord_exists]
    unfold remove_tp_bound_by_index
    cases hp : g.params[k]? with
    | none => simp
    | some p =>
      cases p with
      | lifetimeParam => simp
      | constParam => simp
      | typeParam tp =>
        simp only
        constructor
        · intro h
          have := remove_punctuated_at_true tp.bounds j h
          simpa using this
        · intro h
          rw [remove_punctuated_at_of_lt tp.bounds j (by simpa using h)]
  | whereClauseSite t k j =>
    simp only [apply_to_item_with_generics, coord_exists]
    unfold remove_where_bound_by_index
    cases hw : g.whereClause with
    | none => simp
    | some preds =>
      simp only
      cases hp : preds[k]? with
      | none => simp
      | some p =>
        cases p with
        | lifetimePredicate => simp
        | typePredicate tp =>
          simp only
          constructor
          · intro h
            have h2 : (remove_punctuated_at tp.bounds j).2 = true := by
              split_ifs at h <;> simpa using h
            have := remove_punctuated_at_true tp.bounds j h2
            simpa using this
          · intro h
            have hre := remove_punctuated_at_of_lt tp.bounds j
              (by simpa using h)
            rw [hre]
            split_ifs <;> rfl

/- The single-site edit fires exactly when the site matches and the
coordinate exists. -/

theorem try_edit_node_true_iff (cfg : EditorCfg) (oi : Option String)
    (a : Span) (g : Generics) :
    (try_edit_node cfg false oi a g).1 = true ↔
      (site_matches cfg oi a = true ∧
        coord_exists g cfg.candidate = true) := by
  unfold try_edit_node site_matches
  simp only [if_neg (by simp : ¬ (false = true))]
  by_cases hs : spans_equal a cfg.target_anchor
  · simp only [hs, Bool.true_and]
    cases hti : cfg.target_ident with
    | none =>
      cases oi with
      | none =>
        simp only
        rw [← apply_true_iff_coord_exists g cfg.candidate]
        simp
      | some got =>
        simp only
        rw [← apply_true_iff_coord_exists g cfg.candidate]
        simp
    | some want =>
      cases oi with
      | none =>
        simp only
        rw [← apply_true_iff_coord_exists g cfg.candidate]
        simp
      | some got =>
        by_cases hwg : want = got
        · simp only [hwg]
          simp only [ne_eq, not_true_eq_false, if_neg]
          simp only [if_neg (by simp : ¬ False)]
          rw [← apply_true_iff_coord_exists g cfg.candidate]
          simp
        · simp [hwg]
  · simp [hs]

theorem try_edit_node_blocked (cfg : EditorCfg) (oi : Option String)
    (a : Span) (g : Generics)
    (h : ¬ (site_matches cfg oi a = true ∧
      coord_exists g cfg.candidate = true)) :
    try_edit_node cfg false oi a g = (false, g) := by
  have h1 : (try_edit_node cfg false oi a g).1 = false := by
    cases hf : (try_edit_node cfg false oi a g).1 with
    | false => rfl
    | true => exact absurd ((try_edit_node_true_iff cfg oi a g).mp hf) h
  have h2 := try_edit_node_not_modified cfg oi a g h1
  calc try_edit_node cfg false oi a g
      = ((try_edit_node cfg false oi a g).1,
          (try_edit_node cfg false oi a g).2) := rfl
    _ = (false, g) := by rw [h1, h2]

theorem visit_methods_blocked (cfg : EditorCfg) (ms : List MethodNode)
    (h : ∀ m ∈ ms, ¬ (site_matches cfg (some m.ident) m.anchor = true ∧
      coord_exists m.generics cfg.candidate = true)) :
    visit_methods cfg false ms = (false, ms) := by
  induction ms with
  | nil => rfl
  | cons m rest ih =>
    unfold visit_methods visit_method
    have hm := try_edit_node_blocked cfg (some m.ident) m.anchor m.generics
      (h m (by simp))
    rw [hm]
    simp only
    rw [ih (fun m hm2 => h m (by simp [hm2]))]

theorem visit_node_blocked (cfg : EditorCfg) (n : Node)
    (h : ∀ s ∈ node_sites n, ¬ (site_matches cfg s.1 s.2.1 = true ∧
      coord_exists s.2.2 cfg.candidate = true)) :
    visit_node cfg false n = (false, n) := by
  cases n with
  | fnNode i a g =>
    unfold visit_node
    simp only
    rw [try_edit_node_blocked cfg (some i) a g (h (some i, a, g) (by
      simp [node_sites]))]
  | structNode i a g =>
    unfold visit_node
    simp only
    rw [try_edit_node_blocked cfg (some i) a g (h (some i, a, g) (by
      simp [node_sites]))]
  | enumNode i a g =>
    unfold visit_node
    simp only
    rw [try_edit_node_blocked cfg (some i) a g (h (some i, a, g) (by
      simp [node_sites]))]
  | traitNode i a g ms =>
    unfold visit_node
    simp only
    rw [try_edit_node_blocked cfg (some i) a g (h (some i, a, g) (by
      simp [node_sites]))]
    simp only [if_neg (by simp : ¬ (false = true))]
    rw [visit_methods_blocked cfg ms (fun m hm => h
      (some m.ident, m.anchor, m.generics) (by
        simp only [node_sites, List.mem_cons, List.mem_map]
        exact Or.inr ⟨m, hm, rfl⟩))]
  | implNode a g ms =>
    unfold visit_node
    simp only
    rw [try_edit_node_blocked cfg none a g (h (none, a, g) (by
      simp [node_sites]))]
    simp only [if_neg (by simp : ¬ (false = true))]
    rw [visit_methods_blocked cfg ms (fun m hm => h
      (some m.ident, m.anchor, m.generics) (by
        simp only [node_sites, List.mem_cons, List.mem_map]
        exact Or.inr ⟨m, hm, rfl⟩))]

theorem visit_file_blocked (cfg : EditorCfg) (ns : List Node)
    (h : ∀ n ∈ ns, ∀ s ∈ node_sites n,
      ¬ (site_matches cfg s.1 s.2.1 = true ∧
        coord_exists s.2.2 cfg.candidate = true)) :
    visit_file cfg false ns = (false, ns) := by
  induction ns with
  | nil => rfl
  | cons n rest ih =>
    unfold visit_file
    rw [visit_node_blocked cfg n (h n (by simp))]
    simp only
    rw [ih (fun n2 hn2 => h n2 (by simp [hn2]))]

theorem changed_count_self (ns : List Node) : changed_count ns ns = 0 := by
  induction ns with
  | nil => rfl
  | cons x xs ih => simp [changed_count, ih]

/- Inversions: a false flag means every reachable site was blocked; a fired
traversal pinpoints a matching site with an existing coordinate. -/

theorem try_edit_node_false_inv (cfg : EditorCfg) (oi : Option String)
    (a : Span) (g : Generics)
    (h : (try_edit_node cfg false oi a g).1 = false) :
    ¬ (site_matches cfg oi a = true ∧
      coord_exists g cfg.candidate = true) := by
  intro hc
  rw [(try_edit_node_true_iff cfg oi a g).mpr hc] at h
  simp at h

theorem visit_methods_false_inv (cfg : EditorCfg) (ms : List MethodNode)
    (h : (visit_methods cfg false ms).1 = false) :
    ∀ m ∈ ms, ¬ (site_matches cfg (some m.ident) m.anchor = true ∧
      coord_exists m.generics cfg.candidate = true) := by
  induction ms with
  | nil => simp
  | cons m rest ih =>
    unfold visit_methods at h
    simp only at h
    cases hm : (visit_method cfg false m).1 with
    | true =>
      rw [hm, visit_methods_modified] at h
      simp at h
    | false =>
      rw [hm] at h
      intro m2 hm2
      rcases List.mem_cons.mp hm2 with hh | hh
      · subst hh
        exact try_edit_node_false_inv cfg (some m2.ident) m2.anchor
          m2.generics hm
      · exact ih h m2 hh

theorem visit_methods_true_inv (cfg : EditorCfg) (ms : List MethodNode)
    (h : (visit_methods cfg false ms).1 = true) :
    ∃ m ∈ ms, site_matches cfg (some m.ident) m.anchor = true ∧
      coord_exists m.generics cfg.candidate = true := by
  induction ms with
  | nil => simp [visit_methods] at h
  | cons m rest ih =>
    unfold visit_methods at h
    simp only at h
    cases hm : (visit_method cfg false m).1 with
    | true =>
      refine ⟨m, by simp, ?_⟩
      exact (try_edit_node_true_iff cfg (some m.ident) m.anchor
        m.generics).mp hm
    | false =>
      rw [hm] at h
      obtain ⟨m2, hmem, hfired⟩ := ih h
      exact ⟨m2, by simp [hmem], hfired⟩

theorem visit_node_false_inv (cfg : EditorCfg) (n : Node)
    (h : (visit_node cfg false n).1 = false) :
    ∀ s ∈ node_sites n, ¬ (site_matches cfg s.1 s.2.1 = true ∧
      coord_exists s.2.2 cfg.candidate = true) := by
  cases n with
  | fnNode i a g =>
    unfold visit_node at h
    simp only at h
    intro s hs
    simp only [node_sites, List.mem_singleton] at hs
    subst hs
    exact try_edit_node_false_inv cfg (some i) a g h
  | structNode i a g =>
    unfold visit_node at h
    simp only at h
    intro s hs
    simp only [node_sites, List.mem_singleton] at hs
    subst hs
    exact try_edit_node_false_inv cfg (some i) a g h
  | enumNode i a g =>
    unfold visit_node at h
    simp only at h
    intro s hs
    simp only [node_sites, List.mem_singleton] at hs
    subst hs
    exact try_edit_node_false_inv cfg (some i) a g h
  | traitNode i a g ms =>
    unfold visit_node at h
    simp only at h
    cases ht : (try_edit_node cfg false (some i) a g).1 with
    | true => rw [ht] at h; simp at h
    | false =>
      rw [ht] at h
      simp only [if_neg (by simp : ¬ (false = true))] at h
      intro s hs
      simp only [node_sites, List.mem_cons, List.mem_map] at hs
      rcases hs with hs | ⟨m, hmem, hs⟩
      · subst hs
        exact try_edit_node_false_inv cfg (some i) a g ht
      · subst hs
        exact visit_methods_false_inv cfg ms h m hmem
  | implNode a g ms =>
    unfold visit_node at h
    simp only at h
    cases ht : (try_edit_node cfg false none a g).1 with
    | true => rw [ht] at h; simp at h
    | false =>
      rw [ht] at h
      simp only [if_neg (by simp : ¬ (false = true))] at h
      intro s hs
      simp only [node_sites, List.mem_cons, List.mem_map] at hs
      rcases hs with hs | ⟨m, hmem, hs⟩
      · subst hs
        exact try_edit_node_false_inv cfg none a g ht
      · subst hs
        exact visit_methods_false_inv cfg ms h m hmem

theorem visit_node_true_inv (cfg : EditorCfg) (n : Node)
    (h : (visit_node cfg false n).1 = true) :
    ∃ s ∈ node_sites n, site_matches cfg s.1 s.2.1 = true ∧
      coord_exists s.2.2 cfg.candidate = true := by
  cases n with
  | fnNode i a g =>
    unfold visit_node at h
    simp only at h
    exact ⟨(some i, a, g), by simp [node_sites],
      (try_edit_node_true_iff cfg (some i) a g).mp h⟩
  | structNode i a g =>
    unfold visit_node at h
    simp only at h
    exact ⟨(some i, a, g), by simp [node_sites],
      (try_edit_node_true_iff cfg (some i) a g).mp h⟩
  | enumNode i a g =>
    unfold visit_node at h
    simp only at h
    exact ⟨(some i, a, g), by simp [node_sites],
      (try_edit_node_true_iff cfg (some i) a g).mp h⟩
  | traitNode i a g ms =>
    unfold visit_node at h
    simp only at h
    cases ht : (try_edit_node cfg false (some i) a g).1 with
    | true =>
      exact ⟨(some i, a, g), by simp [node_sites],
        (try_edit_node_true_iff cfg (some i) a g).mp ht⟩
    | false =>
      rw [ht] at h
      simp only [if_neg (by simp : ¬ (false = true))] at h
      obtain ⟨m, hmem, hfired⟩ := visit_methods_true_inv cfg ms h
      refine ⟨(some m.ident, m.anchor, m.generics), ?_, hfired⟩
      simp only [node_sites, List.mem_cons, List.mem_map]
      exact Or.inr ⟨m, hmem, rfl⟩
  | implNode a g ms =>
    unfold visit_node at h
    simp only at h
    cases ht : (try_edit_node cfg false none a g).1 with
    | true =>
      exact ⟨(none, a, g), by simp [node_sites],
        (try_edit_node_true_iff cfg none a g).mp ht⟩
    | false =>
      rw [ht] at h
      simp only [if_neg (by simp : ¬ (false = true))] at h
      obtain ⟨m, hmem, hfired⟩ := visit_methods_true_inv cfg ms h
      refine ⟨(some m.ident, m.anchor, m.generics), ?_, hfired⟩
      simp only [node_sites, List.mem_cons, List.mem_map]
      exact Or.inr ⟨m, hmem, rfl⟩

theorem visit_node_changed_inv (cfg : EditorCfg) (n : Node)
    (h : (visit_node cfg false n).2 ≠ n) :
    ∃ s ∈ node_sites n, site_matches cfg s.1 s.2.1 = true ∧
      coord_exists s.2.2 cfg.candidate = true := by
  cases hf : (visit_node cfg false n).1 with
  | false => exact absurd (visit_node_not_modified cfg n hf) h
  | true => exact visit_node_true_inv cfg n hf

theorem visit_file_changed_count (cfg : EditorCfg) (ns : List Node) :
    changed_count ns (visit_file cfg false ns).2 ≤ 1 := by
  induction ns with
  | nil => simp [visit_file, changed_count]
  | cons n rest ih =>
    unfold visit_file
    simp only
    cases hn : (visit_node cfg false n).1 with
    | false =>
      rw [visit_node_not_modified cfg n hn]
      simpa [changed_count] using ih
    | true =>
      rw [visit_file_modified]
      simp only [changed_count, changed_count_self]
      split_ifs <;> omega

theorem visit_file_changed_at (cfg : EditorCfg) (ns : List Node) (p : Nat)
    (n n2 : Node) (hp : ns[p]? = some n)
    (hp2 : (visit_file cfg false ns).2[p]? = some n2) (hne : n2 ≠ n) :
    (∃ s ∈ node_sites n, site_matches cfg s.1 s.2.1 = true ∧
      coord_exists s.2.2 cfg.candidate = true) ∧
    ∀ q, q < p → ∀ nq, ns[q]? = some nq →
      (visit_file cfg false ns).2[q]? = some nq ∧
      ∀ s ∈ node_sites nq, ¬ (site_matches cfg s.1 s.2.1 = true ∧
        coord_exists s.2.2 cfg.candidate = true) := by
  induction ns generalizing p with
  | nil => simp at hp
  | cons x xs ih =>
    unfold visit_file at hp2 ⊢
    simp only at hp2 ⊢
    cases hx : (visit_node cfg false x).1 with
    | true =>
      rw [hx] at hp2
      rw [visit_file_modified] at hp2
      cases p with
      | zero =>
        simp only [List.getElem?_cons_zero, Option.some.injEq] at hp hp2
        subst hp
        constructor
        · exact visit_node_changed_inv cfg x (by rw [hp2]; exact hne)
        · intro q hq
          omega
      | succ m =>
        simp only [List.getElem?_cons_succ] at hp hp2
        rw [hp] at hp2
        exact absurd (by simpa using hp2.symm) (by simpa using hne)
    | false =>
      rw [hx] at hp2
      have hux := visit_node_not_modified cfg x hx
      cases p with
      | zero =>
        simp only [List.getElem?_cons_zero, Option.some.injEq] at hp hp2
        subst hp
        rw [hux] at hp2
        exact absurd hp2.symm (by simpa using hne)
      | succ m =>
        simp only [List.getElem?_cons_succ] at hp hp2
        obtain ⟨hex, hq⟩ := ih m hp hp2
        refine ⟨hex, ?_⟩
        intro q hqlt nq hnq
        cases q with
        | zero =>
          simp only [List.getElem?_cons_zero, Option.some.injEq] at hnq ⊢
          subst hnq
          exact ⟨hux, visit_node_false_inv cfg x hx⟩
        | succ k =>
          simp only [List.getElem?_cons_succ] at hnq ⊢
          exact hq k (by omega) nq hnq

/- Further trial inversions, the outcome ledger discipline of the loop, and
the disk/baseline invariant. -/

theorem try_candidate_once_ok_inv (env : ExternalEnv) (st : ExtState)
    (w : List Node) (ti : Option String) (ta : Span) (c : BoundCandidate)
    (cs : String) (ch : Nat) (res : TrialResult) (ext2 : ExtState)
    (h : try_candidate_once env st w ti ta c cs ch = (Except.ok res, ext2)) :
    (res.accepted = false → res.new_src = cs ∧ res.new_hash = ch) ∧
      (st.disk = cs → ext2.disk = res.new_src) ∧
      (res.accepted = true →
        ∃ chk, res.outcome = BoundRemovalOutcome.removed chk) := by
  by_cases hm : (visit_file ⟨ti, ta, c⟩ false w).1 = true
  · by_cases hh : env.hash_bytes
        (env.unparse (visit_file ⟨ti, ta, c⟩ false w).2) = ch
    · rw [try_candidate_once_skipped env st w ti ta c cs ch (Or.inr hh)] at h
      simp only [Prod.mk.injEq, Except.ok.injEq] at h
      rw [← h.1, ← h.2]
      exact ⟨fun _ => ⟨rfl, rfl⟩, fun hd => hd, fun ha => by simp at ha⟩
    · cases hrun : env.run_check
          (env.unparse (visit_file ⟨ti, ta, c⟩ false w).2) with
      | none =>
        rw [try_candidate_once_check_error env st w ti ta c cs ch hm hh
          hrun] at h
        simp at h
      | some chk =>
        by_cases hsuc : chk.status_success = true
        · rw [try_candidate_once_removed env st w ti ta c cs ch chk hm hh
            hrun hsuc] at h
          simp only [Prod.mk.injEq, Except.ok.injEq] at h
          rw [← h.1, ← h.2]
          exact ⟨fun ha => by simp at ha, fun _ => rfl, fun _ => ⟨chk, rfl⟩⟩
        · rw [try_candidate_once_retained env st w ti ta c cs ch chk hm hh
            hrun (by simpa using hsuc)] at h
          simp only [Prod.mk.injEq, Except.ok.injEq] at h
          rw [← h.1, ← h.2]
          exact ⟨fun _ => ⟨rfl, rfl⟩, fun _ => rfl, fun ha => by simp at ha⟩
  · rw [try_candidate_once_skipped env st w ti ta c cs ch
      (Or.inl (by simpa using hm))] at h
    simp only [Prod.mk.injEq, Except.ok.injEq] at h
    rw [← h.1, ← h.2]
    exact ⟨fun _ => ⟨rfl, rfl⟩, fun hd => hd, fun ha => by simp at ha⟩

theorem run_candidates_outcomes (env : ExternalEnv) (ti : Option String)
    (ta : Span) (cands : List BoundCandidate) (st st1 : PruneState)
    (b : Bool) (h : run_candidates env ti ta cands st = Except.ok (st1, b)) :
    ∃ new, st1.outcomes = st.outcomes ++ new := by
  induction cands generalizing st with
  | nil =>
    unfold run_candidates at h
    simp only [Except.ok.injEq, Prod.mk.injEq] at h
    rw [← h.1]
    exact ⟨[], by simp⟩
  | cons c rest ih =>
    unfold run_candidates at h
    simp only at h
    cases htr : (try_candidate_once env st.ext st.working ti ta c
        st.current_src st.current_hash).1 with
    | error e => rw [htr] at h; simp at h
    | ok res =>
      rw [htr] at h
      simp only at h
      by_cases ha : res.accepted
      · rw [if_pos (by simpa using ha)] at h
        simp only [Except.ok.injEq, Prod.mk.injEq] at h
        rw [← h.1]
        exact ⟨[⟨c, res.outcome⟩], by simp⟩
      · rw [if_neg (by simpa using ha)] at h
        obtain ⟨new, hnew⟩ := ih _ h
        refine ⟨⟨c, res.outcome⟩ :: new, ?_⟩
        rw [hnew]
        simp

theorem run_candidates_accept_removed (env : ExternalEnv)
    (ti : Option String) (ta : Span) (cands : List BoundCandidate)
    (st st1 : PruneState)
    (h : run_candidates env ti ta cands st = Except.ok (st1, true)) :
    ∃ r ∈ st1.outcomes, ∃ chk,
      r.outcome = BoundRemovalOutcome.removed chk := by
  induction cands generalizing st with
  | nil =>
    unfold run_candidates at h
    simp at h
  | cons c rest ih =>
    unfold run_candidates at h
    simp only at h
    cases htr : (try_candidate_once env st.ext st.working ti ta c
        st.current_src st.current_hash).1 with
    | error e => rw [htr] at h; simp at h
    | ok res =>
      rw [htr] at h
      simp only at h
      by_cases ha : res.accepted
      · rw [if_pos (by simpa using ha)] at h
        simp only [Except.ok.injEq, Prod.mk.injEq] at h
        have hpair : try_candidate_once env st.ext st.working ti ta c
            st.current_src st.current_hash =
            (Except.ok res, (try_candidate_once env st.ext st.working ti ta c
              st.current_src st.current_hash).2) := by
          rw [← htr]
        obtain ⟨-, -, hrem⟩ := try_candidate_once_ok_inv env st.ext st.working
          ti ta c st.current_src st.current_hash res _ hpair
        obtain ⟨chk, hchk⟩ := hrem (by simpa using ha)
        refine ⟨⟨c, res.outcome⟩, ?_, chk, hchk⟩
        rw [← h.1]
        simp
      · rw [if_neg (by simpa using ha)] at h
        obtain ⟨r, hr, chk, hchk⟩ := ih _ h
        exact ⟨r, hr, chk, hchk⟩

theorem run_candidates_disk (env : ExternalEnv) (ti : Option String)
    (ta : Span) (cands : List BoundCandidate) (st st1 : PruneState)
    (b : Bool) (h : run_candidates env ti ta cands st = Except.ok (st1, b))
    (hinv : st.ext.disk = st.current_src) :
    st1.ext.disk = st1.current_src := by
  induction cands generalizing st with
  | nil =>
    unfold run_candidates at h
    simp only [Except.ok.injEq, Prod.mk.injEq] at h
    rw [← h.1]
    exact hinv
  | cons c rest ih =>
    unfold run_candidates at h
    simp only at h
    cases htr : (try_candidate_once env st.ext st.working ti ta c
        st.current_src st.current_hash).1 with
    | error e => rw [htr] at h; simp at h
    | ok res =>
      rw [htr] at h
      simp only at h
      have hpair : try_candidate_once env st.ext st.working ti ta c
          st.current_src st.current_hash =
          (Except.ok res, (try_candidate_once env st.ext st.working ti ta c
            st.current_src st.current_hash).2) := by
        rw [← htr]
      obtain ⟨hnos, hdisk, -⟩ := try_candidate_once_ok_inv env st.ext
        st.working ti ta c st.current_src st.current_hash res _ hpair
      by_cases ha : res.accepted
      · rw [if_pos (by simpa using ha)] at h
        simp only [Except.ok.injEq, Prod.mk.injEq] at h
        rw [← h.1]
        simpa using hdisk hinv
      · rw [if_neg (by simpa using ha)] at h
        apply ih _ h
        simp only
        rw [hdisk hinv, (hnos (by simpa using ha)).1]

theorem prune_loop_outcomes (env : ExternalEnv) (fuel : Nat)
    (bounds : List BoundsItem) (st st1 : PruneState)
    (h : prune_loop env fuel bounds st = some (Except.ok st1)) :
    ∃ new, st1.outcomes = st.outcomes ++ new := by
  induction fuel generalizing bounds st with
  | zero => simp [prune_loop] at h
  | succ fuel ih =>
    unfold prune_loop at h
    cases bounds with
    | nil =>
      simp only [Option.some.injEq, Except.ok.injEq] at h
      rw [← h]
      exact ⟨[], by simp⟩
    | cons item rest =>
      simp only at h
      cases hrc : run_candidates env item.ident item.anchor
          (collect_candidates item) st with
      | error e => rw [hrc] at h; simp at h
      | ok p =>
        obtain ⟨st2, ra⟩ := p
        rw [hrc] at h
        simp only at h
        obtain ⟨n1, hn1⟩ := run_candidates_outcomes env item.ident item.anchor
          (collect_candidates item) st st2 ra hrc
        cases ra with
        | true =>
          rw [if_pos rfl] at h
          obtain ⟨n2, hn2⟩ := ih _ _ h
          exact ⟨n1 ++ n2, by rw [hn2, hn1, List.append_assoc]⟩
        | false =>
          rw [if_neg (by simp)] at h
          obtain ⟨n2, hn2⟩ := ih _ _ h
          exact ⟨n1 ++ n2, by rw [hn2, hn1, List.append_assoc]⟩

theorem prune_loop_no_removed (env : ExternalEnv) (fuel : Nat)
    (bounds : List BoundsItem) (st st1 : PruneState)
    (h : prune_loop env fuel bounds st = some (Except.ok st1))
    (hnr : ∀ r ∈ st1.outcomes, ∀ chk,
      r.outcome ≠ BoundRemovalOutcome.removed chk)
    (hinv : st.ext.disk = st.current_src) :
    st1.working = st.working ∧ st1.current_src = st.current_src ∧
      st1.current_hash = st.current_hash ∧ st1.synTree = st.synTree ∧
      st1.ext.disk = st.ext.disk := by
  induction fuel generalizing bounds st with
  | zero => simp [prune_loop] at h
  | succ fuel ih =>
    unfold prune_loop at h
    cases bounds with
    | nil =>
      simp only [Option.some.injEq, Except.ok.injEq] at h
      rw [← h]
      exact ⟨rfl, rfl, rfl, rfl, rfl⟩
    | cons item rest =>
      simp only at h
      cases hrc : run_candidates env item.ident item.anchor
          (collect_candidates item) st with
      | error e => rw [hrc] at h; simp at h
      | ok p =>
        obtain ⟨st2, ra⟩ := p
        rw [hrc] at h
        simp only at h
        cases ra with
        | true =>
          rw [if_pos rfl] at h
          obtain ⟨r, hr, chk, hchk⟩ := run_candidates_accept_removed env
            item.ident item.anchor (collect_candidates item) st st2 hrc
          obtain ⟨new, hnew⟩ := prune_loop_outcomes env fuel _ st2 st1 h
          have hrin : r ∈ st1.outcomes := by
            rw [hnew]
            exact List.mem_append_left _ hr
          exact absurd hchk (hnr r hrin chk)
        | false =>
          rw [if_neg (by simp)] at h
          obtain ⟨hw, hs, hh, hy⟩ := run_candidates_no_accept env item.ident
            item.anchor (collect_candidates item) st st2 hrc
          have hd2 : st2.ext.disk = st2.current_src :=
            run_candidates_disk env item.ident item.anchor
              (collect_candidates item) st st2 false hrc hinv
          have hinv2 : st2.ext.disk = st2.current_src := hd2
          obtain ⟨k1, k2, k3, k4, k5⟩ := ih _ _ h hinv2
          refine ⟨by rw [k1, hw], by rw [k2, hs], by rw [k3, hh],
            by rw [k4, hy], ?_⟩
          rw [k5, hd2, hs, ← hinv]

/-- C3: when the verifier runs and reports a failing exit status, the trial
function writes back exactly the pre-trial baseline string — given the
engine invariant that the disk held the baseline before the trial, the bytes
on disk after the revert are byte-identical to the bytes immediately before
the trial write — records outcome `Retained`, and returns the unchanged
baseline source and checksum as the current state. -/
theorem c3_retained_reverts_baseline (env : ExternalEnv) (st : ExtState)
    (w : List Node) (ti : Option String) (ta : Span) (c : BoundCandidate)
    (cs : String) (ch : Nat) (chk : CommandOutput)
    (hmod : (visit_file ⟨ti, ta, c⟩ false w).1 = true)
    (hhash :
      env.hash_bytes (env.unparse (visit_file ⟨ti, ta, c⟩ false w).2) ≠ ch)
    (hrun :
      env.run_check (env.unparse (visit_file ⟨ti, ta, c⟩ false w).2) =
        some chk)
    (hfail : chk.status_success = false)
    (hdisk : st.disk = cs) :
    try_candidate_once env st w ti ta c cs ch =
      (Except.ok ⟨false, BoundRemovalOutcome.retained chk, cs, ch⟩,
        ⟨cs, st.checks_run + 1⟩) ∧
      (⟨cs, st.checks_run + 1⟩ : ExtState).disk = st.disk := by
  refine ⟨try_candidate_once_retained env st w ti ta c cs ch chk hmod hhash
    hrun hfail, ?_⟩
  simpa using hdisk.symm

/-- Witness for C3: a concrete rejected trial on `fn f<T: A>`; the result is
`Retained`, the returned state is the baseline, and the disk bytes equal the
pre-trial bytes. -/
theorem c3_retained_reverts_baseline_witness :
    try_candidate_once env_reject ⟨demo_src_one, 5⟩ demo_tree_one (some "f")
        (demo_span 1) demo_cand_one demo_src_one (demo_hash demo_src_one) =
      (Except.ok ⟨false, BoundRemovalOutcome.retained ⟨false, "", ""⟩,
        demo_src_one, demo_hash demo_src_one⟩, ⟨demo_src_one, 6⟩) ∧
      (⟨demo_src_one, 6⟩ : ExtState).disk =
        (⟨demo_src_one, 5⟩ : ExtState).disk := by
  have h := c3_retained_reverts_baseline env_reject ⟨demo_src_one, 5⟩
    demo_tree_one (some "f") (demo_span 1) demo_cand_one demo_src_one
    (demo_hash demo_src_one) ⟨false, "", ""⟩ (by decide) (by decide)
    (by decide) (by decide) (by decide)
  exact h

/-- C4: a candidate whose attempted mutation does not modify the working
tree, or modifies it but serializes to text with the baseline's checksum, is
recorded `Skipped`; the external state (disk bytes and verifier-invocation
count) is returned untouched — nothing is written and the verifier is not
invoked — and the returned current source and checksum are unchanged. -/
theorem c4_skipped_no_write_no_verifier (env : ExternalEnv) (st : ExtState)
    (w : List Node) (ti : Option String) (ta : Span) (c : BoundCandidate)
    (cs : String) (ch : Nat)
    (h : (visit_file ⟨ti, ta, c⟩ false w).1 = false ∨
      env.hash_bytes (env.unparse (visit_file ⟨ti, ta, c⟩ false w).2) = ch) :
    try_candidate_once env st w ti ta c cs ch =
      (Except.ok ⟨false, BoundRemovalOutcome.skipped, cs, ch⟩, st) :=
  try_candidate_once_skipped env st w ti ta c cs ch h

/-- Witness for C4: a candidate addressing a non-existent bound index leaves
the editor unmodified, so the trial is `Skipped` and the external state
(including the invocation counter) is untouched. -/
theorem c4_skipped_no_write_no_verifier_witness :
    try_candidate_once env_accept ⟨demo_src_one, 5⟩ demo_tree_one (some "f")
        (demo_span 1) ⟨BoundSite.typeParamSite "T" 0 7, "A"⟩ demo_src_one
        (demo_hash demo_src_one) =
      (Except.ok ⟨false, BoundRemovalOutcome.skipped, demo_src_one,
        demo_hash demo_src_one⟩, ⟨demo_src_one, 5⟩) := by
  have h := c4_skipped_no_write_no_verifier env_accept ⟨demo_src_one, 5⟩
    demo_tree_one (some "f") (demo_span 1)
    ⟨BoundSite.typeParamSite "T" 0 7, "A"⟩ demo_src_one
    (demo_hash demo_src_one) (Or.inl (by decide))
  exact h

/-- C5: removing the bound at coordinate `(param_index = k, bound_index = j)`
from a type parameter with `n` bounds (for `j < n`) succeeds, leaves the
where clause and all other generic parameters unchanged, and produces for
parameter `k` a bound list of length `n - 1` in which positions before `j`
are unchanged and every later bound moved one position down. -/
theorem c5_tp_bound_removal_positional (g : Generics) (tp : TypeParamData)
    (k j : Nat) (hk : g.params[k]? = some (GenericParam.typeParam tp))
    (hj : j < tp.bounds.length) :
    (remove_tp_bound_by_index g k j).2 = true ∧
    (remove_tp_bound_by_index g k j).1.whereClause = g.whereClause ∧
    (∀ m, m ≠ k →
      (remove_tp_bound_by_index g k j).1.params[m]? = g.params[m]?) ∧
    ∃ tp2 : TypeParamData,
      (remove_tp_bound_by_index g k j).1.params[k]? =
        some (GenericParam.typeParam tp2) ∧
      tp2.bounds.length = tp.bounds.length - 1 ∧
      (∀ m, m < j → tp2.bounds[m]? = tp.bounds[m]?) ∧
      (∀ m, j ≤ m → tp2.bounds[m]? = tp.bounds[m + 1]?) := by
  have hklen : k < g.params.length := (List.getElem?_eq_some.mp hk).1
  unfold remove_tp_bound_by_index
  rw [hk]
  simp only
  rw [remove_punctuated_at_of_lt tp.bounds j hj]
  refine ⟨rfl, trivial, ?_, ?_⟩
  · intro m hm
    exact List.getElem?_set_ne (Ne.symm hm)
  · refine ⟨⟨tp.ident,
      if (tp.bounds.eraseIdx j, true).2 = true ∧
          ((tp.bounds.eraseIdx j, true).1).isEmpty = true then false
        else tp.colonToken,
      tp.bounds.eraseIdx j⟩, ?_, ?_, ?_, ?_⟩
    · exact List.getElem?_set_self hklen
    · simp only
      rw [List.length_eraseIdx]
      simp [hj]
    · intro m hm
      simpa using List.getElem?_eraseIdx_of_lt tp.bounds j m hm
    · intro m hm
      simpa using List.getElem?_eraseIdx_of_ge tp.bounds j m hm

/-- Witness for C5: removing bound index 1 from `T: A + B + C`. -/
theorem c5_tp_bound_removal_positional_witness :
    (remove_tp_bound_by_index
        ⟨[GenericParam.typeParam ⟨"T", true, ["A", "B", "C"]⟩], none⟩
        0 1).2 = true ∧
    ∃ tp2 : TypeParamData,
      (remove_tp_bound_by_index
          ⟨[GenericParam.typeParam ⟨"T", true, ["A", "B", "C"]⟩], none⟩
          0 1).1.params[0]? = some (GenericParam.typeParam tp2) ∧
      tp2.bounds = ["A", "C"] := by
  have h := c5_tp_bound_removal_positional
    ⟨[GenericParam.typeParam ⟨"T", true, ["A", "B", "C"]⟩], none⟩
    ⟨"T", true, ["A", "B", "C"]⟩ 0 1 (by decide) (by decide)
  refine ⟨h.1, ?_⟩
  exact ⟨⟨"T", true, ["A", "C"]⟩, by decide, rfl⟩

/-- C7: if every reachable site of the tree either fails the anchor/name
match or carries generics in which the candidate's coordinate does not exist
(not a bounded type parameter at that index, predicate missing or not
type-shaped, or bound index out of range), the editor reports not-mutated and
returns the tree completely unchanged; being a total function, it cannot
panic on any input. -/
theorem c7_no_match_no_mutation (cfg : EditorCfg) (ns : List Node)
    (h : ∀ n ∈ ns, ∀ s ∈ node_sites n,
      site_matches cfg s.1 s.2.1 = false ∨
        coord_exists s.2.2 cfg.candidate = false) :
    visit_file cfg false ns = (false, ns) := by
  apply visit_file_blocked
  intro n hn s hs hc
  rcases h n hn s hs with hb | hb
  · rw [hc.1] at hb
    simp at hb
  · rw [hc.2] at hb
    simp at hb

/-- Witness for C7: a candidate whose bound index is out of range in the only
matching node leaves the tree untouched and unmodified. -/
theorem c7_no_match_no_mutation_witness :
    visit_file ⟨some "f", demo_span 1,
        ⟨BoundSite.typeParamSite "T" 0 7, "A"⟩⟩ false demo_tree_one =
      (false, demo_tree_one) := by
  have h := c7_no_match_no_mutation
    ⟨some "f", demo_span 1, ⟨BoundSite.typeParamSite "T" 0 7, "A"⟩⟩
    demo_tree_one (by decide)
  exact h

/-- C10: the per-file prune loop terminates on every input: any fuel larger
than the total number of bounds in the working tree plus the number of
pending items suffices, because each iteration either accepts a removal
(strictly decreasing the working tree's total bound count) or drops the
current head item (strictly decreasing the bounds vector's length). -/
theorem c10_prune_loop_terminates (env : ExternalEnv) (fuel : Nat)
    (bounds : List BoundsItem) (st : PruneState)
    (h : file_bound_count st.working + bounds.length < fuel) :
    (prune_loop env fuel bounds st).isSome :=
  prune_loop_isSome env fuel bounds st h

/-- Witness for C10: the accept-everything run on `fn f<T: A>` terminates
within the stated fuel. -/
theorem c10_prune_loop_terminates_witness :
    (prune_loop env_accept 10 (collect_fn_bounds demo_tree_one)
      ⟨demo_tree_one, demo_src_one, demo_hash demo_src_one,
        ⟨demo_src_one, 0⟩, [], demo_tree_one⟩).isSome := by
  have h := c10_prune_loop_terminates env_accept 10
    (collect_fn_bounds demo_tree_one)
    ⟨demo_tree_one, demo_src_one, demo_hash demo_src_one,
      ⟨demo_src_one, 0⟩, [], demo_tree_one⟩ (by decide)
  exact h

/-- C6: collapse invariant after every successful single-bound removal. If
the removal emptied a type parameter's bound list, that parameter's colon
token is dropped; if it emptied a where predicate's bound list (the removed
bound was its last, i.e. the predicate had exactly one bound), exactly that
predicate — the one at `pred_index` — is dropped from the clause, every
predicate before it keeping its position and every predicate after it moving
one position down, and if it was the last predicate the whole where clause
is dropped. -/
theorem c6_collapse_invariant (g : Generics) (c : BoundCandidate)
    (h : (apply_to_item_with_generics g c).2 = true) :
    (∀ i k j, c.site = BoundSite.typeParamSite i k j →
      ∀ tp2, (apply_to_item_with_generics g c).1.params[k]? =
          some (GenericParam.typeParam tp2) →
        tp2.bounds.isEmpty = true → tp2.colonToken = false) ∧
    (∀ t p j preds wp, c.site = BoundSite.whereClauseSite t p j →
      g.whereClause = some preds →
      preds[p]? = some (WherePredicate.typePredicate wp) →
      wp.bounds.length = 1 →
      ((preds.length = 1 →
        (apply_to_item_with_generics g c).1.whereClause = none) ∧
       (1 < preds.length → ∃ preds2,
         (apply_to_item_with_generics g c).1.whereClause = some preds2 ∧
         preds2.length = preds.length - 1 ∧
         (∀ m, m < p → preds2[m]? = preds[m]?) ∧
         (∀ m, p ≤ m → preds2[m]? = preds[m + 1]?)))) := by
  obtain ⟨site, bound⟩ := c
  constructor
  · intro i k j hsite tp2 hp2 hemp
    subst hsite
    simp only [apply_to_item_with_generics] at h hp2
    unfold remove_tp_bound_by_index at h hp2
    cases hp : g.params[k]? with
    | none => rw [hp] at h; simp at h
    | some p =>
      cases p with
      | lifetimeParam => rw [hp] at h; simp at h
      | constParam => rw [hp] at h; simp at h
      | typeParam tp =>
        rw [hp] at h hp2
        simp only at h hp2
        have hklen : k < g.params.length := (List.getElem?_eq_some.mp hp).1
        rw [List.getElem?_set_self hklen] at hp2
        simp only [Option.some.injEq, GenericParam.typeParam.injEq] at hp2
        rw [← hp2] at hemp ⊢
        simp only at hemp ⊢
        rw [if_pos ⟨h, hemp⟩]
  · intro t p j preds wp hsite hw hp hlen
    subst hsite
    simp only [apply_to_item_with_generics] at h ⊢
    unfold remove_where_bound_by_index at h ⊢
    rw [hw] at h ⊢
    simp only at h ⊢
    rw [hp] at h ⊢
    simp only at h ⊢
    have hr2 : (remove_punctuated_at wp.bounds j).2 = true := by
      split_ifs at h <;> simpa using h
    have hjlt := remove_punctuated_at_true wp.bounds j hr2
    have hre := remove_punctuated_at_of_lt wp.bounds j hjlt
    rw [hre] at h ⊢
    have hplen : p < preds.length := (List.getElem?_eq_some.mp hp).1
    have hempty : (wp.bounds.eraseIdx j).isEmpty = true := by
      rw [List.isEmpty_iff, ← List.length_eq_zero, List.length_eraseIdx]
      simp [hjlt]
      omega
    rw [if_pos ⟨rfl, hempty⟩] at h ⊢
    have hp2len : p < (preds.set p (WherePredicate.typePredicate
        { wp with bounds := wp.bounds.eraseIdx j })).length := by
      simpa using hplen
    have hdrop := drop_predicate_at_of_lt (preds.set p
      (WherePredicate.typePredicate { wp with bounds := wp.bounds.eraseIdx j }))
      p hp2len
    have hdlen : (drop_predicate_at (preds.set p (WherePredicate.typePredicate
        { wp with bounds := wp.bounds.eraseIdx j })) p).length =
        preds.length - 1 := by
      rw [hdrop, List.length_eraseIdx]
      simp only [List.length_set]
      simp [hplen]
    constructor
    · intro hone
      have hempty3 : (drop_predicate_at (preds.set p
          (WherePredicate.typePredicate
            { wp with bounds := wp.bounds.eraseIdx j })) p).isEmpty = true := by
        rw [List.isEmpty_iff, ← List.length_eq_zero, hdlen, hone]
      rw [if_pos hempty3]
    · intro hmore
      have hne3 : ¬ ((drop_predicate_at (preds.set p
          (WherePredicate.typePredicate
            { wp with bounds := wp.bounds.eraseIdx j })) p).isEmpty = true) := by
        rw [List.isEmpty_iff, ← List.length_eq_zero, hdlen]
        omega
      rw [if_neg hne3]
      refine ⟨drop_predicate_at (preds.set p (WherePredicate.typePredicate
          { wp with bounds := wp.bounds.eraseIdx j })) p, rfl, hdlen,
        ?_, ?_⟩
      · intro m hm
        rw [hdrop]
        rw [List.getElem?_eraseIdx_of_lt _ p m hm]
        exact List.getElem?_set_ne (by omega)
      · intro m hm
        rw [hdrop]
        rw [List.getElem?_eraseIdx_of_ge _ p m hm]
        exact List.getElem?_set_ne (by omega)

/-- Witness for C6: removing the only bound of the only predicate of
`where T: A` drops the whole where clause; removing the only bound of the
first of the two predicates of `where T: A, U: B + C` drops exactly that
predicate, the second one moving to position 0 unchanged. -/
theorem c6_collapse_invariant_witness :
    (apply_to_item_with_generics
        ⟨[GenericParam.typeParam ⟨"T", false, []⟩],
          some [WherePredicate.typePredicate ⟨"T", ["A"]⟩]⟩
        ⟨BoundSite.whereClauseSite "T" 0 0, "A"⟩).1.whereClause = none ∧
    ∃ preds2,
      (apply_to_item_with_generics
          ⟨[GenericParam.typeParam ⟨"T", false, []⟩],
            some [WherePredicate.typePredicate ⟨"T", ["A"]⟩,
              WherePredicate.typePredicate ⟨"U", ["B", "C"]⟩]⟩
          ⟨BoundSite.whereClauseSite "T" 0 0, "A"⟩).1.whereClause =
        some preds2 ∧
      preds2.length = 1 ∧
      preds2[0]? = some (WherePredicate.typePredicate ⟨"U", ["B", "C"]⟩) := by
  have h1 := c6_collapse_invariant
    ⟨[GenericParam.typeParam ⟨"T", false, []⟩],
      some [WherePredicate.typePredicate ⟨"T", ["A"]⟩]⟩
    ⟨BoundSite.whereClauseSite "T" 0 0, "A"⟩ (by decide)
  have h2 := c6_collapse_invariant
    ⟨[GenericParam.typeParam ⟨"T", false, []⟩],
      some [WherePredicate.typePredicate ⟨"T", ["A"]⟩,
        WherePredicate.typePredicate ⟨"U", ["B", "C"]⟩]⟩
    ⟨BoundSite.whereClauseSite "T" 0 0, "A"⟩ (by decide)
  refine ⟨(h1.2 "T" 0 0 [WherePredicate.typePredicate ⟨"T", ["A"]⟩]
    ⟨"T", ["A"]⟩ rfl rfl (by decide) (by decide)).1 (by decide), ?_⟩
  obtain ⟨preds2, heq, hlen, hlt, hge⟩ :=
    (h2.2 "T" 0 0 [WherePredicate.typePredicate ⟨"T", ["A"]⟩,
        WherePredicate.typePredicate ⟨"U", ["B", "C"]⟩]
      ⟨"T", ["A"]⟩ rfl rfl (by decide) (by decide)).2 (by decide)
  refine ⟨preds2, heq, by rw [hlen]; decide, ?_⟩
  rw [hge 0 (by omega)]
  decide

/-- C1: the re-processing pass after an acceptance re-collects its candidates
from the stale `bounds[0]` record extracted before the run, not from the
mutated working tree. On `fn f<T: A + B>` with an all-accepting verifier the
ledger shows two `Removed` entries both recorded for candidate
`(param 0, bound 0, A)` — although the second trial actually deleted `B` —
followed by a trial of the stale coordinate `(param 0, bound 1)`, which no
longer exists in the working tree (whose parameter holds no bounds at the
end). Re-deriving from the mutated tree would instead have produced the
single candidate `(param 0, bound 0, B)` for the second pass, as the last
conjunct computes. -/
theorem c1_stale_candidates_code_bug :
    (result_state stale_run).outcomes =
      [⟨⟨BoundSite.typeParamSite "T" 0 0, "A"⟩,
         BoundRemovalOutcome.removed ⟨true, "", ""⟩⟩,
       ⟨⟨BoundSite.typeParamSite "T" 0 0, "A"⟩,
         BoundRemovalOutcome.removed ⟨true, "", ""⟩⟩,
       ⟨⟨BoundSite.typeParamSite "T" 0 0, "A"⟩, BoundRemovalOutcome.skipped⟩,
       ⟨⟨BoundSite.typeParamSite "T" 0 1, "B"⟩,
         BoundRemovalOutcome.skipped⟩] ∧
    (result_state stale_run).working =
      [Node.fnNode "f" (demo_span 1)
        ⟨[GenericParam.typeParam ⟨"T", false, []⟩], none⟩] ∧
    collect_fn_bounds
      [Node.fnNode "f" (demo_span 1)
        ⟨[GenericParam.typeParam ⟨"T", true, ["B"]⟩], none⟩] =
      [⟨some "f", demo_span 1, [⟨"T", ["B"], 0⟩], []⟩] := by
  refine ⟨?_, ?_, ?_⟩ <;> decide

/-- C2: when the verifier invocation itself fails after the trial text has
been written, `try_candidate_once` propagates the error without reverting:
the file on disk is left holding the trial text, which differs from the
pre-trial baseline. -/
theorem c2_verifier_error_leaves_trial_text :
    try_candidate_once env_error ⟨demo_src_one, 0⟩ demo_tree_one (some "f")
        (demo_span 1) demo_cand_one demo_src_one (demo_hash demo_src_one) =
      (Except.error "running cargo check", ⟨"fn f<T>", 1⟩) ∧
    "fn f<T>" ≠ demo_src_one := by
  refine ⟨by rfl, by decide⟩

/-- Counterexample to C8 as stated: the first visited node matches the
anchor and the required name, yet it is left unmodified and a later-visited
node is the one mutated — traversal continues past a matching node when the
candidate's removal does not apply to it. -/
theorem c8_first_match_counterexample :
    site_matches dup_anchor_cfg (some "f") (demo_span 1) = true ∧
    (visit_file dup_anchor_cfg false dup_nodes).2[0]? = dup_nodes[0]? ∧
    (visit_file dup_anchor_cfg false dup_nodes).2[1]? ≠ dup_nodes[1]? := by
  refine ⟨?_, ?_, ?_⟩ <;> decide

/-- C8 (amended): in every single traversal at most one node is mutated,
namely the first visited node that both matches the target (anchor, and name
where required) and carries the candidate's coordinate; after a successful
mutation the traversal modifies no later node (a traversal entered with the
modified flag set changes nothing), every node before the mutated one is
left unchanged and contains no matching site with an applicable coordinate —
in particular a node matching the anchor but with a different name is never
mutated. -/
theorem c8_at_most_one_mutation (cfg : EditorCfg) (ns : List Node) :
    visit_file cfg true ns = (true, ns) ∧
    changed_count ns (visit_file cfg false ns).2 ≤ 1 ∧
    (∀ (p : Nat) (n n2 : Node), ns[p]? = some n →
      (visit_file cfg false ns).2[p]? = some n2 →
      n2 ≠ n →
      (∃ s ∈ node_sites n, site_matches cfg s.1 s.2.1 = true ∧
        coord_exists s.2.2 cfg.candidate = true) ∧
      ∀ (q : Nat), q < p → ∀ (nq : Node), ns[q]? = some nq →
        (visit_file cfg false ns).2[q]? = some nq ∧
        ∀ s ∈ node_sites nq, ¬ (site_matches cfg s.1 s.2.1 = true ∧
          coord_exists s.2.2 cfg.candidate = true)) :=
  ⟨visit_file_modified cfg ns, visit_file_changed_count cfg ns,
    fun p n n2 hp hp2 hne => visit_file_changed_at cfg ns p n n2 hp hp2 hne⟩

/-- Witness for C8 (amended) on the duplicate-anchor scenario: the changed
node (position 1) carries a matching site with an applicable coordinate, and
the node before it was left unchanged. -/
theorem c8_at_most_one_mutation_witness :
    visit_file dup_anchor_cfg true dup_nodes = (true, dup_nodes) ∧
    changed_count dup_nodes (visit_file dup_anchor_cfg false dup_nodes).2 ≤
      1 ∧
    (∃ s ∈ node_sites (Node.fnNode "f" (demo_span 1)
        ⟨[GenericParam.typeParam ⟨"T", true, ["A"]⟩], none⟩),
      site_matches dup_anchor_cfg s.1 s.2.1 = true ∧
      coord_exists s.2.2 dup_anchor_cfg.candidate = true) := by
  obtain ⟨h1, h2, h3⟩ := c8_at_most_one_mutation dup_anchor_cfg dup_nodes
  refine ⟨h1, h2, ?_⟩
  exact (h3 1
    (Node.fnNode "f" (demo_span 1)
      ⟨[GenericParam.typeParam ⟨"T", true, ["A"]⟩], none⟩)
    (Node.fnNode "f" (demo_span 1)
      ⟨[GenericParam.typeParam ⟨"T", false, []⟩], none⟩)
    (by decide) (by decide) (by decide)).1

/-- Counterexample to C9 as stated: with the deterministic oracle of
`interact_env`, the first run retains `A` (its trial ran while `B` was still
present) and the dropped item is never revisited, so the second run — on the
text produced by the first — records a further `Removed` outcome and changes
the file's text. -/
theorem c9_not_idempotent_counterexample :
    interact_run1 = some (Except.ok interact_st1) ∧
    interact_run2 = some (Except.ok interact_st2) ∧
    (∃ r ∈ interact_st2.outcomes, ∃ chk,
      r.outcome = BoundRemovalOutcome.removed chk) ∧
    interact_st2.current_src ≠ interact_st1.current_src := by
  refine ⟨by rfl, by rfl, ?_, by decide⟩
  refine ⟨⟨⟨BoundSite.typeParamSite "T" 0 0, "A"⟩,
    BoundRemovalOutcome.removed ⟨true, "", ""⟩⟩, by decide,
    ⟨true, "", ""⟩, by decide⟩

/-- C9 (amended): the prune run is idempotent whenever the first run accepts
no removal: if a run starting from a baseline whose bytes are on disk records
no `Removed` outcome, then its text, tree and disk are unchanged, and a
second run on the text it produced — with bounds freshly extracted from its
(unchanged) tree — is the very same computation and again returns the same
state: no `Removed` outcome and no further change. (Full idempotence fails:
see the counterexample.) -/
theorem c9_idempotent_when_no_removal (env : ExternalEnv) (fuel : Nat)
    (ext : ExtState) (tree : List Node) (st1 : PruneState)
    (hb : prune_function_bounds env fuel ext tree (collect_fn_bounds tree) =
      some (Except.ok st1))
    (hnr : ∀ r ∈ st1.outcomes, ∀ chk,
      r.outcome ≠ BoundRemovalOutcome.removed chk) :
    st1.current_src = ext.disk ∧ st1.ext.disk = ext.disk ∧
      st1.working = tree ∧
      prune_function_bounds env fuel ⟨st1.ext.disk, ext.checks_run⟩
        st1.working (collect_fn_bounds st1.working) =
        some (Except.ok st1) := by
  have hb' : prune_loop env fuel (collect_fn_bounds tree)
      ⟨tree, ext.disk, env.hash_bytes ext.disk, ext, [], tree⟩ =
      some (Except.ok st1) := hb
  obtain ⟨hw, hs, hh, hy, hd⟩ := prune_loop_no_removed env fuel
    (collect_fn_bounds tree)
    ⟨tree, ext.disk, env.hash_bytes ext.disk, ext, [], tree⟩ st1 hb' hnr rfl
  simp only at hw hs hh hy hd
  have hext : (⟨st1.ext.disk, ext.checks_run⟩ : ExtState) = ext := by
    rw [hd]
  refine ⟨hs, hd, hw, ?_⟩
  rw [hext, hw]
  exact hb

/-- Witness for C9 (amended): a run with an all-rejecting oracle on
`fn f<T: A>` removes nothing, and the second run returns the same state. -/
theorem c9_idempotent_when_no_removal_witness :
    noremove_st.current_src = demo_src_one ∧
    prune_function_bounds env_reject 10 ⟨noremove_st.ext.disk, 0⟩
      noremove_st.working (collect_fn_bounds noremove_st.working) =
      some (Except.ok noremove_st) := by
  have hout : noremove_st.outcomes =
      [⟨⟨BoundSite.typeParamSite "T" 0 0, "A"⟩,
        BoundRemovalOutcome.retained ⟨false, "", ""⟩⟩] := by decide
  have h := c9_idempotent_when_no_removal env_reject 10 ⟨demo_src_one, 0⟩
    demo_tree_one noremove_st (by rfl)
    (by
      intro r hr chk
      rw [hout] at hr
      have hre : r = ⟨⟨BoundSite.typeParamSite "T" 0 0, "A"⟩,
          BoundRemovalOutcome.retained ⟨false, "", ""⟩⟩ := by
        simpa using hr
      rw [hre]
      simp)
  exact ⟨h.1, h.2.2.2⟩

end TraitWinnower
